import Mathlib

/-!
# A verification development for the `gloop` agent core

This file gives a shallow embedding, in Lean 4, of the core of the `gloop`
terminal agent (a TypeScript program): the response parser
(`src/tools/parser.ts`), the Form algebra and evaluator (`src/core/core.ts`),
the streaming tag filter (`src/core/ui.ts`), the spawn-task detector
(`src/core/task-mode.ts`), the memory-entry compactor (`src/core/system.ts` /
`memory.ts`), the dangerous-command gate (`src/tools/validator.ts`) and the
context-manager pruning step (`context-manager.ts`).

Strings are modelled as `List Char` (named `Str` below), which JavaScript
string primitives (`substring`, `trim`, `endsWith`, regex scanning with lazy
quantifiers, …) translate to directly.  JavaScript regular-expression
replacement with patterns of the shape `OPEN([\s\S]*?)CLOSE` is modelled by an
explicit left-to-right scanner (`findFirst` / `extractTF`) with the same
semantics: at each position try the opening literal; after it, take the
shortest content such that one of the closing literals follows; a position
with no later closer does not match and the scan advances one character.

Effectful code (the evaluator `eval_`, the Invoke step) is modelled as a pure
function from oracles for the external collaborators (tool registry, tool
execution, user confirm/ask, LLM stream, subagent spawn) to the list of calls
made on the Effects surface, in order.  Asynchrony and the cancellation token
are not modelled (the evaluator is sequential; every `await` is a plain call).
-/

set_option maxRecDepth 4000

namespace Gloop

/-- Strings as explicit character lists. -/
abbrev Str := List Char

/-- Conversion from Lean string literals. -/
def str (s : String) : Str := s.data

/-- JavaScript whitespace (`\s`, `trim`): space, tab, LF, CR, vertical tab,
form feed.  (Unicode space characters beyond ASCII are not modelled.) -/
def jsWs (c : Char) : Bool :=
  c = ' ' || c = '\t' || c = '\n' || c = '\r' || c = '\x0b' || c = '\x0c'

/-- JavaScript word character (`\w`): ASCII letters, digits, underscore. -/
def isWordChar (c : Char) : Bool :=
  c.isAlpha || c.isDigit || c = '_'

/-- `String.prototype.trim`: drop whitespace from both ends. -/
def jsTrim (s : Str) : Str :=
  ((s.dropWhile jsWs).reverse.dropWhile jsWs).reverse

/-- `String.prototype.trimEnd`: drop whitespace from the end. -/
def jsTrimEnd (s : Str) : Str :=
  (s.reverse.dropWhile jsWs).reverse

/-- Join a list of strings with a separator (`Array.prototype.join`). -/
def joinSep (sep : Str) : List Str → Str
  | [] => []
  | [x] => x
  | x :: xs => x ++ sep ++ joinSep sep xs

/-- Leftmost, earliest match of one of the literal patterns `pats` in `s`:
returns `(before, pat, after)` where `s = before ++ pat ++ after`, `before`
contains no earlier occurrence of any pattern, and `pat` is the first pattern
(in list order) matching at that position.  This is the search a lazy
`([\s\S]*?)(P₁|P₂)` performs for its closing alternatives. -/
def findFirst (pats : List Str) : Str → Option (Str × Str × Str)
  | [] => none
  | c :: rest =>
    match pats.find? (fun p => p.isPrefixOf (c :: rest)) with
    | some p => some ([], p, (c :: rest).drop p.length)
    | none => (findFirst pats rest).map (fun x => (c :: x.1, x.2.1, x.2.2))

theorem findFirst_eq_some (pats : List Str) (s b p a : Str)
    (h : findFirst pats s = some (b, p, a)) :
    s = b ++ p ++ a ∧ p ∈ pats := by
  induction s generalizing b with
  | nil => simp [findFirst] at h
  | cons c rest ih =>
    rw [findFirst] at h
    cases hf : (pats.find? (fun p => p.isPrefixOf (c :: rest))) with
    | some q =>
      rw [hf] at h
      simp only [Option.some.injEq, Prod.mk.injEq] at h
      obtain ⟨hb, hp, ha⟩ := h
      subst hb hp ha
      have hq := List.find?_some hf
      have hmem := List.mem_of_find?_eq_some hf
      rw [List.isPrefixOf_iff_prefix] at hq
      obtain ⟨t, ht⟩ := hq
      refine ⟨?_, hmem⟩
      conv_lhs => rw [← ht]
      rw [← ht]
      simp [List.drop_left]
    | none =>
      rw [hf] at h
      simp only [Option.map_eq_some'] at h
      obtain ⟨⟨b', p', a'⟩, hrec, heq⟩ := h
      simp only [Prod.mk.injEq] at heq
      obtain ⟨hb, hp, ha⟩ := heq
      subst hp ha
      obtain ⟨hs, hpm⟩ := ih b' hrec
      subst hb
      simp [hs, hpm]

/-- A match of `OPEN([\s\S]*?)(C₁|C₂|…)` starting exactly at the head of `s`:
the opening literal must be a prefix and a closer must occur after it. -/
def scanAt (opn : Str) (closers : List Str) (s : Str) : Option (Str × Str × Str) :=
  if opn.isPrefixOf s then findFirst closers (s.drop opn.length) else none

/-- All matches of the lazy pattern `OPEN([\s\S]*?)(C₁|C₂|…)` in a string, with
the concatenated unmatched remainder, as produced by a global
`String.prototype.replace` that deletes each match and a callback that records
each capture group: a position with no match (no opening literal, or no later
closer) advances one character.  `fuel` bounds the recursion; callers pass
`s.length`. -/
def extractTF (opn : Str) (closers : List Str) : Nat → Str → List Str × Str
  | _, [] => ([], [])
  | 0, s => ([], s)
  | fuel + 1, c :: rest =>
    match scanAt opn closers (c :: rest) with
    | some x =>
      let y := extractTF opn closers fuel x.2.2
      (x.1 :: y.1, y.2)
    | none =>
      let y := extractTF opn closers fuel rest
      (y.1, c :: y.2)

/-- `extractTF` with enough fuel for its input. -/
def extractTagged (opn : Str) (closers : List Str) (s : Str) : List Str × Str :=
  extractTF opn closers s.length s

/-! ## Markup tag literals (`src/tools/parser.ts`, `src/core/ui.ts`) -/

def tagToolsOpen : Str := str "<tools>"
def tagToolsClose : Str := str "</tools>"
def tagToolOpen : Str := str "<tool>"
def tagToolClose : Str := str "</tool>"
def tagRememberOpen : Str := str "<remember>"
def tagRememberClose : Str := str "</remember>"
def tagForgetOpen : Str := str "<forget>"
def tagForgetClose : Str := str "</forget>"
def tagKimiSectionOpen : Str := str "<|tool_calls_section_begin|>"
def tagKimiSectionClose : Str := str "<|tool_calls_section_end|>"
def tagKimiCallOpen : Str := str "<|tool_call_begin|>"
def tagKimiCallClose : Str := str "<|tool_call_end|>"
def tagKimiArgSep : Str := str "<|tool_call_argument_begin|>"

/-! ## Tool-call data model (`src/tools/types.ts`) -/

/-- A parsed tool call: name plus positional raw arguments. -/
structure ToolCall where
  name : Str
  rawArgs : List Str
deriving DecidableEq

/-- A tool execution result. -/
structure ToolResult where
  name : Str
  output : Str
  success : Bool
deriving DecidableEq

/-- The output of `parseResponse`. -/
structure ParsedResponse where
  toolCalls : List ToolCall
  remembers : List Str
  forgets : List Str
  cleanText : Str
deriving DecidableEq

/-! ## Argument parsing (`src/tools/parser.ts`, `parseArguments`) -/

/-- Scan a quoted argument after its opening quote `q`: collect characters up
to the matching unescaped quote, interpreting `\n`, `\t`, `\\` inside, and
emitting any other escaped character literally.  Returns the value and the
remainder after the closing quote.  A trailing lone backslash is kept, and an
unterminated quote consumes the rest of the input (as in the source loop). -/
def scanQuoted (q : Char) : Str → Str × Str
  | [] => ([], [])
  | [c] => if c = q then ([], []) else ([c], [])
  | c :: e :: rest =>
    if c = q then ([], e :: rest)
    else if c = '\\' then
      let v : Char := if e = 'n' then '\n' else if e = 't' then '\t' else e
      let x := scanQuoted q rest
      (v :: x.1, x.2)
    else
      let x := scanQuoted q (e :: rest)
      (c :: x.1, x.2)

/-- Skip an optional keyword-argument marker `^(\w+)\s*[=:]\s*` at the head of
`s`; if the pattern does not match, `s` is returned unchanged. -/
def kwargSkip (s : Str) : Str :=
  let w := s.takeWhile isWordChar
  if w = [] then s
  else
    match (s.drop w.length).dropWhile jsWs with
    | c :: r2 => if c = '=' || c = ':' then r2.dropWhile jsWs else s
    | [] => s

/-- One pass of the `parseArguments` loop; `fuel` bounds iteration count (each
iteration consumes at least one character, so `length + 1` is enough). -/
def parseArgsGo : Nat → Str → List Str
  | 0, _ => []
  | fuel + 1, s =>
    match s.dropWhile jsWs with
    | [] => []
    | s1@(_ :: _) =>
      match (kwargSkip s1).dropWhile jsWs with
      | [] => []
      | q :: tail =>
        if q = '"' || q = '\'' || q = '`' then
          let x := scanQuoted q tail
          x.1 :: parseArgsGo fuel (x.2.dropWhile (fun c => jsWs c || c = ','))
        else
          let v := (q :: tail).takeWhile (fun c => c ≠ ',')
          let rest := (q :: tail).dropWhile (fun c => c ≠ ',')
          jsTrim v :: parseArgsGo fuel (rest.drop 1)

/-- Parse a comma-separated argument list: positional or `name=`/`name:`
keyword style, quoted by `"` / `'` / a backtick or bare up to the next comma. -/
def parseArguments (argsStr : Str) : List Str :=
  parseArgsGo (argsStr.length + 1) argsStr

/-- Parse a tool call string `Name(args…)` (regex `^(\w+)\(([\s\S]*)\)$`):
the whole text must be a word-character name, an opening parenthesis, any
content, and a final closing parenthesis.  Returns `none` otherwise. -/
def parseToolCall (text : Str) : Option ToolCall :=
  let name := text.takeWhile isWordChar
  let rest := text.drop name.length
  if name = [] then none
  else
    match rest with
    | '(' :: _ =>
      if rest.getLast? = some ')' then
        let argsStr := jsTrim ((rest.drop 1).dropLast)
        if argsStr = [] then some ⟨name, []⟩
        else some ⟨name, parseArguments argsStr⟩
      else none
    | _ => none

/-! ## Kimi-dialect tool calls (`parseKimiToolCalls`) -/

/-- Modelled platform built-in: the composition `JSON.parse` +
`Object.values` + `String(value)` used on a Kimi argument payload.  Only the
shapes the agent actually receives are modelled: a flat JSON object whose
values are string literals (escapes `\"`, `\\`, `\n`, `\t`, `\r`), yielding
the decoded values in key order, and the empty object.  Any other payload
returns `none`, which the caller treats like a parse failure (whole text as a
single argument).  No claim in this development depends on this dialect's
argument decoding. -/
def jsonStringLit : Str → Option (Str × Str)
  | [] => none
  | c :: rest =>
    if c = '"' then jsonStringTail rest
    else none
where
  jsonStringTail : Str → Option (Str × Str)
    | [] => none
    | [c] => if c = '"' then some ([], []) else none
    | c :: e :: rest =>
      if c = '"' then some ([], e :: rest)
      else if c = '\\' then
        let v : Option Char :=
          if e = 'n' then some '\n' else if e = 't' then some '\t'
          else if e = 'r' then some '\r' else if e = '"' then some '"'
          else if e = '\\' then some '\\' else none
        match v with
        | none => none
        | some v => (jsonStringTail rest).map (fun x => (v :: x.1, x.2))
      else (jsonStringTail (e :: rest)).map (fun x => (c :: x.1, x.2))

/-- Parse the members of a flat string-valued JSON object after its `\x7b`. -/
def jsonMembers : Nat → Str → Option (List Str)
  | 0, _ => none
  | fuel + 1, s =>
    match jsonStringLit (s.dropWhile jsWs) with
    | none => none
    | some (_key, r1) =>
      match r1.dropWhile jsWs with
      | ':' :: r2 =>
        match jsonStringLit (r2.dropWhile jsWs) with
        | none => none
        | some (v, r3) =>
          match r3.dropWhile jsWs with
          | ',' :: r4 => (jsonMembers fuel r4).map (fun vs => v :: vs)
          | '\x7d' :: r5 => if r5.dropWhile jsWs = [] then some [v] else none
          | _ => none
      | _ => none

/-- See `jsonStringLit`: modelled `JSON.parse` for flat string-valued objects,
returning `Object.values` in key order. -/
def jsonObjectStringValues (s : Str) : Option (List Str) :=
  match s.dropWhile jsWs with
  | '\x7b' :: r1 =>
    match r1.dropWhile jsWs with
    | '\x7d' :: r2 => if r2.dropWhile jsWs = [] then some [] else none
    | _ => jsonMembers (r1.length + 1) r1
  | _ => none

/-- Parse one Kimi call body `HEADER<|tool_call_argument_begin|>JSON`:
header `functions.Name[:idx]` or a bare name; JSON argument values in key
order, or the whole JSON text as a single argument when it fails to parse. -/
def kimiCallOf (body0 : Str) : Option ToolCall :=
  let body := jsTrim body0
  match findFirst [tagKimiArgSep] body with
  | none => none
  | some (header0, _, argsJson0) =>
    let header := jsTrim header0
    let argsJson := jsTrim argsJson0
    let fname := (header.drop (str "functions.").length).takeWhile isWordChar
    let name :=
      if (str "functions.").isPrefixOf header ∧ fname ≠ [] then fname else header
    let rawArgs :=
      if argsJson = [] then []
      else
        match jsonObjectStringValues argsJson with
        | some vals => vals
        | none => [argsJson]
    some ⟨name, rawArgs⟩

/-- All Kimi tool calls inside a sentinel section's content. -/
def kimiCallsIn (content : Str) : List ToolCall :=
  ((extractTagged tagKimiCallOpen [tagKimiCallClose] content).1).filterMap kimiCallOf

/-! ## Response parsing (`parseResponse`) -/

/-- Tool bodies inside a `<tools>` container's content. -/
def toolBodiesIn (content : Str) : List Str :=
  (extractTagged tagToolOpen [tagToolClose] content).1

/-- Remember bodies (trimmed) inside a `<tools>` container's content. -/
def remembersIn (content : Str) : List Str :=
  ((extractTagged tagRememberOpen [tagRememberClose] content).1).map jsTrim

/-- Forget bodies (trimmed) inside a `<tools>` container's content. -/
def forgetsIn (content : Str) : List Str :=
  ((extractTagged tagForgetOpen [tagForgetClose] content).1).map jsTrim

/-- Parse model response text for tool calls, remember/forget blocks, in both
markup dialects, leaving the cleaned prose.  Matches the staged global
`replace` calls of the source: `<tools>…</tools>` (a stray `<tools>` is also
accepted as terminator), then the Kimi sentinel section, then top-level
`<remember>`, `<forget>`, and bare `<tool>` elements; every stage scans the
text left by the previous stage with removed regions joined. -/
def parseResponse (text : Str) : ParsedResponse :=
  let x1 := extractTagged tagToolsOpen [tagToolsClose, tagToolsOpen] text
  let x2 := extractTagged tagKimiSectionOpen [tagKimiSectionClose] x1.2
  let x3 := extractTagged tagRememberOpen [tagRememberClose] x2.2
  let x4 := extractTagged tagForgetOpen [tagForgetClose] x3.2
  let x5 := extractTagged tagToolOpen [tagToolClose] x4.2
  { toolCalls :=
      x1.1.flatMap (fun c => (toolBodiesIn c).filterMap (fun b => parseToolCall (jsTrim b)))
        ++ x2.1.flatMap kimiCallsIn
        ++ x5.1.filterMap (fun b => parseToolCall (jsTrim b))
    remembers := x1.1.flatMap remembersIn ++ x3.1.map jsTrim
    forgets := x1.1.flatMap forgetsIn ++ x4.1.map jsTrim
    cleanText := jsTrim x5.2 }

/-! ## Spawn-task detection (`src/core/task-mode.ts`) -/

/-- A detected subagent task request. -/
structure TaskRequest where
  task : Str
  model : Option Str
  provider : Option Str
  debug : Bool
deriving DecidableEq

/-- JavaScript truthiness of a possibly-absent string: present and nonempty. -/
def truthy : Option Str → Bool
  | some s => s ≠ []
  | none => false

/-- The token loop of `parseTaskRequestTokens`: later occurrences of a flag
overwrite earlier ones; a trailing valueless `--task`/`--model`/`--provider`
matches no branch and is skipped (it starts with `--`); non-flag tokens are
collected as positionals in order. -/
def ptrLoop : List Str → Option Str → Option Str → Option Str → Bool → List Str →
    Option Str × Option Str × Option Str × Bool × List Str
  | [], task, model, provider, debug, pos => (task, model, provider, debug, pos.reverse)
  | t :: rest, task, model, provider, debug, pos =>
    if t = str "--task" then
      match rest with
      | v :: rest2 => ptrLoop rest2 (some v) model provider debug pos
      | [] => (task, model, provider, debug, pos.reverse)
    else if (str "--task=").isPrefixOf t then
      ptrLoop rest (some (t.drop (str "--task=").length)) model provider debug pos
    else if t = str "--model" then
      match rest with
      | v :: rest2 => ptrLoop rest2 task (some v) provider debug pos
      | [] => (task, model, provider, debug, pos.reverse)
    else if (str "--model=").isPrefixOf t then
      ptrLoop rest task (some (t.drop (str "--model=").length)) provider debug pos
    else if t = str "--provider" then
      match rest with
      | v :: rest2 => ptrLoop rest2 task model (some v) debug pos
      | [] => (task, model, provider, debug, pos.reverse)
    else if (str "--provider=").isPrefixOf t then
      ptrLoop rest task model (some (t.drop (str "--provider=").length)) debug pos
    else if t = str "--debug" then
      ptrLoop rest task model provider true pos
    else if (str "--").isPrefixOf t then
      ptrLoop rest task model provider debug pos
    else
      ptrLoop rest task model provider debug (t :: pos)

/-- Parse `gloop` CLI-style tokens into a task request.  A missing or empty
(`falsy`) task yields `none`; a falsy model falls back to the first
positional token. -/
def parseTaskRequestTokens (tokens : List Str) : Option TaskRequest :=
  match ptrLoop tokens none none none false [] with
  | (task, model, provider, debug, positional) =>
    match task with
    | none => none
    | some t =>
      if t = [] then none
      else
        let model1 := if !truthy model ∧ positional ≠ [] then positional.head? else model
        some ⟨t, model1, provider, debug⟩

/-- POSIX-like shell tokenization: single quotes are literal, double quotes
and backticks respect backslash escapes, backslash escapes outside quotes,
whitespace separates tokens.  An unterminated quote or trailing escape yields
`none`. -/
def sscGo (tokens : List Str) (current : Str) (quote : Option Char) (escaped : Bool) :
    Str → Option (List Str)
  | [] =>
    if escaped ∨ quote.isSome then none
    else if current ≠ [] then some (tokens ++ [current]) else some tokens
  | ch :: rest =>
    if escaped then sscGo tokens (current ++ [ch]) quote false rest
    else
      match quote with
      | some q =>
        if q ≠ '\'' ∧ ch = '\\' then sscGo tokens current quote true rest
        else if ch = q then sscGo tokens current none false rest
        else sscGo tokens (current ++ [ch]) quote false rest
      | none =>
        if ch = '\\' then sscGo tokens current none true rest
        else if ch = '\'' ∨ ch = '"' ∨ ch = '`' then sscGo tokens current (some ch) false rest
        else if jsWs ch then
          (if current ≠ [] then sscGo (tokens ++ [current]) [] none false rest
           else sscGo tokens [] none false rest)
        else sscGo tokens (current ++ [ch]) none false rest

/-- See `sscGo`. -/
def splitShellCommand (command : Str) : Option (List Str) :=
  sscGo [] [] none false command

/-- The first token's basename (after the last `/`) must be `gloop`. -/
def isGloopCommand (token : Str) : Bool :=
  (List.splitOn '/' token).getLast? = some (str "gloop")

/-- Detect a `gloop [flags…] --task "…"` shell command in a Bash argument. -/
def parseGloopTaskBashCommand (command : Str) : Option TaskRequest :=
  match splitShellCommand command with
  | none => none
  | some [] => none
  | some (t0 :: rest) =>
    if isGloopCommand t0 then parseTaskRequestTokens rest else none

/-! ## The Form algebra (`src/core/core.ts`) -/

/-- Result of a detached subagent invocation. -/
structure SpawnResult where
  success : Bool
  summary : Str
  exitCode : Int
  stdout : Str
  stderr : Str

/-- A Form describes the next unit of work — pure data; continuation-carrying
variants hold a function of the produced result.  (`then` is a Lean keyword,
so the continuation field is called `next`.) -/
inductive Form where
  | think (input : Str)
  | invoke (calls : List ToolCall) (next : List ToolResult → Form)
  | confirm (command : Str) (next : Bool → Form)
  | ask (question : Str) (next : Str → Form)
  | remember (content : Str) (next : Form)
  | forget (content : Str) (next : Form)
  | emit (text : Str) (next : Form)
  | refresh
  | reboot (reason : Str)
  | done (summary : Str)
  | seq (forms : List Form)
  | nil
  | install (source : Str)
  | listTools
  | spawn (task : Str) (next : SpawnResult → Form)

/-- Format tool results as the synthetic `<tool_result …>` blob fed back to
the model, joined by blank lines. -/
def formatResults (results : List ToolResult) : Str :=
  joinSep (str "\n\n") (results.map (fun r =>
    str "<tool_result name=\"" ++ r.name ++ str "\" status=\"" ++
      (if r.success then str "success" else str "error") ++
      str "\">\n" ++ r.output ++ str "\n</tool_result>"))

/-- SpawnResult → synthetic ToolResult for feeding back to the LLM. -/
def spawnToToolResult (r : SpawnResult) : ToolResult :=
  { name := str "Bash"
    output :=
      if r.success then str "Subagent task completed.\n" ++ r.summary
      else str "Subagent task failed (exit code: " ++ str (toString r.exitCode) ++ str ").\n" ++ r.summary
    success := r.success }

/-- foldr over spawn tasks: chain Spawn forms right-to-left with a base. -/
def chainSpawns (tasks : List Str) (base : Form) : Form :=
  tasks.foldr
    (fun task acc => Form.spawn task (fun r => Form.emit (formatResults [spawnToToolResult r]) acc))
    base

/-- Classify a tool call: either a spawn task string, or `none` (regular). -/
def asSpawnTask (call : ToolCall) : Option Str :=
  if call.name ≠ str "Bash" then none
  else
    match parseGloopTaskBashCommand (call.rawArgs.head?.getD []) with
    | some req => some req.task
    | none => none

/-- The partitioning loop of `parseToForm`: the source tests the extracted
task with JavaScript truthiness (`if (task)`), so an empty task string keeps
the call on the regular side. -/
def partitionSpawn : List ToolCall → List ToolCall × List Str
  | [] => ([], [])
  | c :: rest =>
    let x := partitionSpawn rest
    match asSpawnTask c with
    | some t => if t ≠ [] then (x.1, t :: x.2) else (c :: x.1, x.2)
    | none => (c :: x.1, x.2)

/-- Memory operations of a response as `Remember`/`Forget` forms, remembers
first, each with `Nil` successor. -/
def memoryFormsOf (p : ParsedResponse) : List Form :=
  p.remembers.map (fun r => Form.remember r Form.nil)
    ++ p.forgets.map (fun f => Form.forget f Form.nil)

/-- Wrap a form behind the response's memory prefix (a `Seq`) when present. -/
def withMemory (p : ParsedResponse) (form : Form) : Form :=
  if 0 < (memoryFormsOf p).length then Form.seq (memoryFormsOf p ++ [form]) else form

/-- The source's `completeCall` local: the first `CompleteTask` call. -/
def completeCallOf (p : ParsedResponse) : Option ToolCall :=
  p.toolCalls.find? (fun c => c.name == str "CompleteTask")

/-- The source's `rebootCall` local: the first `Reboot` call. -/
def rebootCallOf (p : ParsedResponse) : Option ToolCall :=
  p.toolCalls.find? (fun c => c.name == str "Reboot")

/-- The source's `regularCalls` local: everything except the terminal calls. -/
def regularCallsOf (p : ParsedResponse) : List ToolCall :=
  p.toolCalls.filter (fun c => !(c.name == str "CompleteTask") && !(c.name == str "Reboot"))

/-- The tool-call part of `parseToForm` (every return of the source function
is `withMemory` of one of these branches). -/
def formFor (p : ParsedResponse) : Form :=
  if p.toolCalls = [] then Form.nil
  else
    match rebootCallOf p with
    | some rc =>
      let reason := rc.rawArgs.head?.getD (str "Reboot requested")
      if regularCallsOf p ≠ [] then Form.invoke (regularCallsOf p) (fun _ => Form.reboot reason)
      else Form.reboot reason
    | none =>
      match completeCallOf p with
      | some cc =>
        let summary := cc.rawArgs.head?.getD (str "Task complete")
        if regularCallsOf p ≠ [] then Form.invoke (regularCallsOf p) (fun _ => Form.done summary)
        else Form.done summary
      | none =>
        if regularCallsOf p = [] then Form.nil
        else
          let x := partitionSpawn (regularCallsOf p)
          if x.2 = [] then
            Form.invoke (regularCallsOf p) (fun results => Form.think (formatResults results))
          else if x.1 ≠ [] then
            Form.invoke x.1 (fun toolResults => chainSpawns x.2 (Form.think (formatResults toolResults)))
          else chainSpawns x.2 (Form.think [])

/-- Parse LLM response text and construct the appropriate Form. -/
def parseToForm (text : Str) : Form :=
  withMemory (parseResponse text) (formFor (parseResponse text))

/-! ## Dangerous-command gate (`src/tools/validator.ts`) -/

/-- A `\b` word boundary holds on the left of a word-character match when the
preceding character (if any) is not a word character. -/
def boundaryLeftOk (a : Str) : Bool :=
  match a.getLast? with
  | none => true
  | some c => !(isWordChar c)

/-- A `\b` word boundary holds after a word-character match when the next
character (if any) is not a word character. -/
def boundaryRightOk (b : Str) : Bool :=
  match b.head? with
  | none => true
  | some c => !(isWordChar c)

/-- The regex `\bW\b` matches somewhere in `s` (for a word-only literal `W`). -/
def containsWordB (w : Str) (s : Str) : Bool :=
  (List.range (s.length + 1)).any (fun i =>
    boundaryLeftOk (s.take i) && w.isPrefixOf (s.drop i) &&
      boundaryRightOk ((s.drop i).drop w.length))

/-- The regex `\brm\s+-AB?\b` matches somewhere in `s`.  Greedy `\s+` is
maximal munch (safe: `-` is not whitespace); the optional `B` is tried first,
falling back to the short form, exactly as regex backtracking does. -/
def matchRmFlag (flagA flagB : Char) (s : Str) : Bool :=
  (List.range (s.length + 1)).any (fun i =>
    boundaryLeftOk (s.take i) && (str "rm").isPrefixOf (s.drop i) &&
      (let c := (s.drop i).drop 2
       !(c.takeWhile jsWs).isEmpty &&
         (let d := c.dropWhile jsWs
          (['-', flagA, flagB].isPrefixOf d && boundaryRightOk (d.drop 3)) ||
            (['-', flagA].isPrefixOf d && boundaryRightOk (d.drop 2)))))

/-- Check whether a tool call requires user confirmation: a `Bash` command
matching one of the dangerous patterns `\brm\b`, `\brmdir\b`, `\brm\s+-rf?\b`,
`\brm\s+-fr?\b` returns the command itself as the danger description. -/
def requiresConfirmation (call : ToolCall) : Option Str :=
  if call.name ≠ str "Bash" then none
  else
    let command := call.rawArgs.head?.getD []
    if containsWordB (str "rm") command || containsWordB (str "rmdir") command
        || matchRmFlag 'r' 'f' command || matchRmFlag 'f' 'r' command
    then some command
    else none

/-! ## Tool definitions and the registry surface (`src/tools/types.ts`) -/

/-- A tool argument declaration. -/
structure ToolArgument where
  name : Str
  description : Str

/-- A callable tool.  `execute` models the asynchronous executor: `Except.ok`
is the resolved output, `Except.error` the caught-and-formatted failure
message (the source appends a short platform stack excerpt to the thrown
message; the formatted text is modelled as the error payload). -/
structure ToolDefinition where
  name : Str
  description : Str
  arguments : List ToolArgument
  execute : List (Str × Str) → Except Str Str
  askPermission : Option (List (Str × Str) → Option Str)

/-- Build the argument mapping: zip declared argument names with the raw
positional arguments (excess raw arguments ignored, missing names absent). -/
def buildArgs (tool : ToolDefinition) (raw : List Str) : List (Str × Str) :=
  (tool.arguments.map (fun a => a.name)).zip raw

/-! ## The Effects surface as an event trace -/

/-- One call on the Effects surface, in program order.  Query-style effects
(`confirm`, `ask`, `manageContext`, `spawn`, `installTool`) also record their
invocation; their answers come from the `Env` oracles below. -/
inductive Ev where
  | streamChunk (text : Str)
  | streamDone
  | toolStart (name preview : Str)
  | toolDone (name : Str) (ok : Bool) (output : Str)
  | confirmEv (command : Str)
  | askEv (question : Str)
  | rememberEv (content : Str)
  | forgetEv (content : Str)
  | refreshSystem
  | rebootEv (reason : Str)
  | manageContextEv (instructions : Str)
  | completeEv (summary : Str)
  | installToolEv (source : Str)
  | listToolsEv
  | spawnEv (task : Str)
deriving DecidableEq

/-- Oracles for the external collaborators: the tool registry (a name→tool
map), the answers of the user-facing effects, and the LLM stream (the chunks
of the `n`-th `Think` step; `none` models a chunk without text content). -/
structure Env where
  registry : Str → Option ToolDefinition
  confirmAns : Str → Bool
  askAns : Str → Str
  manageCtxRes : Str → Str
  spawnRes : Str → SpawnResult
  installRes : Str → Str
  listToolsRes : Str
  responses : Nat → List (Option Str)

/-! ## The Invoke step (`evalInvoke` in `src/core/core.ts`) -/

/-- The `toolStart` preview: each raw argument quoted and truncated to 40
characters (with `...`), joined by `, `. -/
def callPreview (call : ToolCall) : Str :=
  joinSep (str ", ") (call.rawArgs.map (fun a =>
    str "\"" ++ (a.take 40 ++ (if 40 < a.length then str "..." else [])) ++ str "\""))

/-- The execution tail of one tool call, after any confirmation succeeded:
emit `toolStart`, run the tool, capture success or failure into a result. -/
def execCall (tool : ToolDefinition) (call : ToolCall) : List Ev × ToolResult :=
  let preview := callPreview call
  match tool.execute (buildArgs tool call.rawArgs) with
  | .ok output =>
    ([.toolStart call.name preview, .toolDone call.name true (str "ok")],
     ⟨call.name, output, true⟩)
  | .error msg =>
    ([.toolStart call.name preview, .toolDone call.name false msg],
     ⟨call.name, msg, false⟩)

/-- Danger description of a resolved call: the built-in pattern gate first,
then the tool's own `askPermission` hook when the first returned none. -/
def dangerOf (tool : ToolDefinition) (call : ToolCall) : Option Str :=
  match requiresConfirmation call with
  | some d => some d
  | none =>
    match tool.askPermission with
    | some f => f (buildArgs tool call.rawArgs)
    | none => none

/-- The resolved-tool path of the Invoke loop: confirm when dangerous (a
denial synthesizes a failure result), otherwise execute. -/
def runResolved (env : Env) (tool : ToolDefinition) (call : ToolCall) : List Ev × ToolResult :=
  match dangerOf tool call with
  | some d =>
    if env.confirmAns d then
      let x := execCall tool call
      (Ev.confirmEv d :: x.1, x.2)
    else
      ([.confirmEv d, .toolDone call.name false (str "denied by user")],
       ⟨call.name, str "User denied execution", false⟩)
  | none => execCall tool call

/-- One iteration of the Invoke loop: `AskUser` and `ManageContext` are
handled inline; an unknown name synthesizes a failure result; a dangerous
call asks for confirmation and a denial synthesizes a failure result. -/
def runCall (env : Env) (call : ToolCall) : List Ev × ToolResult :=
  if call.name = str "AskUser" then
    let question := call.rawArgs.head?.getD (str "What would you like to do?")
    let answer := env.askAns question
    ([.toolStart (str "AskUser") (question.take 60), .askEv question,
      .toolDone (str "AskUser") true (str "answered")],
     ⟨str "AskUser", str "User answered: " ++ answer, true⟩)
  else if call.name = str "ManageContext" then
    let instructions := call.rawArgs.head?.getD (str "Prune stale messages")
    let result := env.manageCtxRes instructions
    ([.toolStart (str "ManageContext") (instructions.take 60), .manageContextEv instructions,
      .toolDone (str "ManageContext") true result],
     ⟨str "ManageContext", result, true⟩)
  else
    match env.registry call.name with
    | none =>
      ([.toolDone call.name false (str "Unknown tool: " ++ call.name)],
       ⟨call.name, str "Unknown tool: " ++ call.name, false⟩)
    | some tool => runResolved env tool call

/-- The Invoke loop over a batch, in input order. -/
def runCalls (env : Env) : List ToolCall → List Ev × List ToolResult
  | [] => ([], [])
  | c :: cs =>
    let x := runCall env c
    let y := runCalls env cs
    (x.1 ++ y.1, x.2 :: y.2)

def CONTEXT_PRUNE_INTERVAL : Nat := 50

def pruneInstructions : Str :=
  str "Prune old tool results and intermediate outputs. Keep the current task goal, recent results, and any information the agent is actively using."

/-- The whole Invoke step on a batch: run every call, refresh the system
prompt if a `Reload` call was in the batch, and auto-prune the context when
the per-run tool-call counter reaches the threshold.  Returns the emitted
events, the results handed to the continuation, and the new counter. -/
def evalInvokeStep (env : Env) (counter : Nat) (calls : List ToolCall) :
    List Ev × List ToolResult × Nat :=
  let x := runCalls env calls
  let evs1 := if calls.any (fun c => c.name == str "Reload") then x.1 ++ [.refreshSystem] else x.1
  let c1 := counter + calls.length
  if CONTEXT_PRUNE_INTERVAL ≤ c1 then
    let pruneResult := env.manageCtxRes pruneInstructions
    (evs1 ++ [.toolStart (str "ManageContext") (str "auto-pruning after 50 tool calls"),
              .manageContextEv pruneInstructions,
              .toolDone (str "ManageContext") true pruneResult],
     x.2, 0)
  else (evs1, x.2, c1)

/-! ## The streaming tag filter (`src/core/ui.ts`)

The filter's buffer only ever grows by one character at the end and is
queried with `endsWith`, so it is stored here in reverse order (most recent
character first, `bufR`); `tag.reverse.isPrefixOf bufR` is
`buffer.endsWith(tag)`.  The source guards tool detection with the presence
of the `onToolParsed` callback; the model always produces the events (a
caller without the callback simply discards them — the emitted characters do
not depend on it). -/

inductive FState where
  | normal
  | buffering
  | suppressing
deriving DecidableEq

/-- The payload of an `onToolParsed` notification. -/
structure ToolParsedInfo where
  name : Str
  preview : Str
deriving DecidableEq

/-- An output of the filter: a clean text emission or a tool-parsed event. -/
inductive Out where
  | emit (text : Str)
  | toolParsed (info : ToolParsedInfo)
deriving DecidableEq

structure SF where
  state : FState
  bufR : Str
  closingTags : List Str
  currentOpeningTag : Str
  nestingDepth : Nat
  isToolContainer : Bool
  processedToolCount : Nat
deriving DecidableEq

def OPENING_TAGS : List Str :=
  [tagToolsOpen, tagRememberOpen, tagForgetOpen, tagKimiSectionOpen]

def CLOSING_FOR (t : Str) : List Str :=
  if t = tagToolsOpen then [tagToolsClose]
  else if t = tagRememberOpen then [tagRememberClose]
  else if t = tagForgetOpen then [tagForgetClose]
  else if t = tagKimiSectionOpen then [tagKimiSectionClose]
  else []

def isToolContainerTag (t : Str) : Bool :=
  t = tagToolsOpen ∨ t = tagKimiSectionOpen

/-- `buffer.endsWith(tag)` on the reversed buffer. -/
def endsWithR (bufR : Str) (tag : Str) : Bool :=
  tag.reverse.isPrefixOf bufR

/-- Index of the last occurrence of `c` in `s` (JS `lastIndexOf`). -/
def lastIndexOfChar (c : Char) (s : Str) : Option Nat :=
  match s.reverse.findIdx? (fun x => x = c) with
  | some i => some (s.length - 1 - i)
  | none => none

/-- Parse `ToolName(args…)` out of a `<tool>` capture for the early UI event:
trimmed body must match `^(\w+)\(`; the preview is the text between the
parenthesis and the last `)` (empty when absent or not after the start),
truncated to 60 characters. -/
def toolInfoOf (cap : Str) : Option ToolParsedInfo :=
  let body := jsTrim cap
  let name := body.takeWhile isWordChar
  if name = [] then none
  else
    match body.drop name.length with
    | '(' :: _ =>
      let argsStart := name.length + 1
      let rawArgs :=
        match lastIndexOfChar ')' body with
        | some argsEnd =>
          if argsStart < argsEnd then (body.drop argsStart).take (argsEnd - argsStart) else []
        | none => []
      some ⟨name, rawArgs.take 60 ++ (if 60 < rawArgs.length then str "..." else [])⟩
    | _ => none

/-- Scan the suppression buffer for `<tool>…</tool>` matches and fire events
for those beyond the already-processed count; returns the events and the new
total count. -/
def emitNewTools (buf : Str) (processed : Nat) : List Out × Nat :=
  let caps := (extractTagged tagToolOpen [tagToolClose] buf).1
  (((caps.drop processed).filterMap toolInfoOf).map Out.toolParsed, caps.length)

/-- One character through the filter state machine. -/
def sfStep (sf : SF) (ch : Char) : SF × List Out :=
  match sf.state with
  | .normal =>
    if ch = '<' then ({ sf with state := .buffering, bufR := ['<'] }, [])
    else (sf, [Out.emit [ch]])
  | .buffering =>
    let bufR := ch :: sf.bufR
    let buf := bufR.reverse
    match OPENING_TAGS.find? (fun t => t == buf) with
    | some tag =>
      ({ state := .suppressing, bufR := [], closingTags := CLOSING_FOR tag,
         currentOpeningTag := tag, nestingDepth := 0,
         isToolContainer := isToolContainerTag tag, processedToolCount := 0 }, [])
    | none =>
      if OPENING_TAGS.any (fun t => buf.isPrefixOf t) then
        ({ sf with bufR := bufR }, [])
      else
        ({ sf with state := .normal, bufR := [] }, [Out.emit buf])
  | .suppressing =>
    let bufR := ch :: sf.bufR
    let depth1 :=
      if sf.currentOpeningTag ≠ [] ∧ endsWithR bufR sf.currentOpeningTag
      then sf.nestingDepth + 1 else sf.nestingDepth
    let x :=
      if sf.isToolContainer ∧ endsWithR bufR tagToolClose
      then emitNewTools bufR.reverse sf.processedToolCount
      else ([], sf.processedToolCount)
    if sf.closingTags.any (fun ct => endsWithR bufR ct) then
      if 0 < depth1 then
        ({ sf with bufR := bufR, nestingDepth := depth1 - 1, processedToolCount := x.2 }, x.1)
      else
        let y := if sf.isToolContainer then emitNewTools bufR.reverse x.2 else ([], x.2)
        ({ state := .normal, bufR := [], closingTags := [], currentOpeningTag := [],
           nestingDepth := 0, isToolContainer := false, processedToolCount := 0 },
         x.1 ++ y.1)
    else
      ({ sf with bufR := bufR, nestingDepth := depth1, processedToolCount := x.2 }, x.1)

/-- `write(chunk)`: each character through `sfStep`. -/
def sfWrite (sf : SF) : Str → SF × List Out
  | [] => (sf, [])
  | c :: rest =>
    let x := sfStep sf c
    let y := sfWrite x.1 rest
    (y.1, x.2 ++ y.2)

/-- The initial (and post-reset) filter state. -/
def initSF : SF :=
  { state := .normal, bufR := [], closingTags := [], currentOpeningTag := []
    nestingDepth := 0, isToolContainer := false, processedToolCount := 0 }

/-- `flush()`: emit a still-buffering accumulator as normal text, reset. -/
def sfFlush (sf : SF) : SF × List Out :=
  (initSF, if sf.bufR ≠ [] ∧ sf.state = .buffering then [Out.emit sf.bufR.reverse] else [])

/-- Feed a sequence of chunks. -/
def sfWriteChunks (sf : SF) : List Str → SF × List Out
  | [] => (sf, [])
  | c :: cs =>
    let x := sfWrite sf c
    let y := sfWriteChunks x.1 cs
    (y.1, x.2 ++ y.2)

/-- All filter outputs for a chunked input followed by the end-of-stream
`flush()`. -/
def runFilter (chunks : List Str) : List Out :=
  let x := sfWriteChunks initSF chunks
  x.2 ++ (sfFlush x.1).2

/-- Concatenation of the characters emitted to the sink. -/
def outChars (outs : List Out) : Str :=
  outs.flatMap (fun o => match o with | .emit t => t | .toolParsed _ => [])

/-- The `onToolParsed` events, in order. -/
def toolEventsOfOut (outs : List Out) : List ToolParsedInfo :=
  outs.filterMap (fun o => match o with | .toolParsed i => some i | .emit _ => none)

/-! ## The evaluator (`eval_`, `evalThink` in `src/core/core.ts`) -/

/-- `String.prototype.includes` for a nonempty pattern. -/
def containsSub (pat s : Str) : Bool :=
  (findFirst [pat] s).isSome

/-- A complete tool block has arrived mid-stream. -/
def hasCompleteToolBlock (s : Str) : Bool :=
  (containsSub tagToolsOpen s && containsSub tagToolsClose s)
    || (containsSub tagKimiSectionOpen s && containsSub tagKimiSectionClose s)

/-- The clean-text emissions of filter outputs as `streamChunk` effects
(the Think step's filter is constructed without `onToolParsed`, so its
tool events are discarded). -/
def streamEvs (outs : List Out) : List Ev :=
  outs.filterMap (fun o => match o with | .emit t => some (Ev.streamChunk t) | _ => none)

/-- The manual stream iteration of the Think step: write each text chunk
through the filter, accumulate raw text, and break early as soon as a
complete tool block is present (the completeness check runs after every
chunk).  Returns the filter state, the filter outputs, and the accumulator. -/
def thinkLoop : List (Option Str) → SF → Str → SF × List Out × Str
  | [], sf, acc => (sf, [], acc)
  | chunk :: rest, sf, acc =>
    match chunk with
    | none =>
      if hasCompleteToolBlock acc then (sf, [], acc)
      else thinkLoop rest sf acc
    | some text =>
      let x := sfWrite sf text
      let acc1 := acc ++ text
      if hasCompleteToolBlock acc1 then (x.1, x.2, acc1)
      else
        let y := thinkLoop rest x.1 acc1
        (y.1, x.2 ++ y.2.1, y.2.2)

/-- The per-run world state the evaluator threads: the tool-call counter and
the index of the next LLM response in the oracle (the conversation handle and
registry are external and immutable here; the cancellation token is not
modelled). -/
structure WState where
  toolCalls : Nat
  thinkIdx : Nat
deriving DecidableEq

/-- The trampolined interpreter `eval_ : Form × World × Effects → …` as a
trace function: returns the Effects calls in order, the final world state,
and whether evaluation completed within `fuel` (the source recursion has no
fuel; every recursive entry here consumes one unit, and a `Seq` is unrolled
head-first, so any finite run is reproduced by a large enough fuel).
`Reboot` ends the trace after its effect, as the process never returns. -/
def evalF : Nat → Form → Env → WState → List Ev × WState × Bool
  | 0, _, _, w => ([], w, false)
  | fuel + 1, form, env, w =>
    match form with
    | .nil => ([], w, true)
    | .done s => ([.completeEv s], w, true)
    | .emit t k =>
      let x := evalF fuel k env w
      ([.streamChunk t, .streamDone] ++ x.1, x.2)
    | .remember c k =>
      let x := evalF fuel k env w
      (Ev.rememberEv c :: x.1, x.2)
    | .forget c k =>
      let x := evalF fuel k env w
      (Ev.forgetEv c :: x.1, x.2)
    | .confirm cmd k =>
      let x := evalF fuel (k (env.confirmAns cmd)) env w
      (Ev.confirmEv cmd :: x.1, x.2)
    | .ask q k =>
      let x := evalF fuel (k (env.askAns q)) env w
      (Ev.askEv q :: x.1, x.2)
    | .refresh => ([.refreshSystem], w, true)
    | .reboot r => ([.rebootEv r], w, true)
    | .seq [] => ([], w, true)
    | .seq (f :: fs) =>
      let x := evalF fuel f env w
      let y := evalF fuel (.seq fs) env x.2.1
      (x.1 ++ y.1, y.2.1, x.2.2 && y.2.2)
    | .think _input =>
      let chunks := env.responses w.thinkIdx
      let t := thinkLoop chunks initSF []
      let evs := streamEvs t.2.1 ++ streamEvs (sfFlush t.1).2 ++ [Ev.streamDone]
      let x := evalF fuel (parseToForm t.2.2) env { w with thinkIdx := w.thinkIdx + 1 }
      (evs ++ x.1, x.2)
    | .invoke calls k =>
      let x := evalInvokeStep env w.toolCalls calls
      let y := evalF fuel (k x.2.1) env { w with toolCalls := x.2.2 }
      (x.1 ++ y.1, y.2)
    | .install s => ([.installToolEv s, .streamChunk (env.installRes s), .streamDone], w, true)
    | .listTools => ([.listToolsEv, .streamChunk env.listToolsRes, .streamDone], w, true)
    | .spawn t k =>
      let x := evalF fuel (k (env.spawnRes t)) env w
      (Ev.spawnEv t :: x.1, x.2)

/-! ## Memory entry compaction (`src/core/memory.ts`) -/

/-- `replace(/\s+/g, " ")`: collapse every whitespace run to one space. -/
def collapseGo : Bool → Str → Str
  | _, [] => []
  | prevWs, c :: rest =>
    if jsWs c then
      if prevWs then collapseGo true rest else ' ' :: collapseGo true rest
    else c :: collapseGo false rest

/-- See `collapseGo`. -/
def collapseWs (s : Str) : Str := collapseGo false s

def MAX_MEMORY_ENTRY_LENGTH : Nat := 500

/-- Compact a memory entry: short entries are only trimmed; over-cap entries
are collapsed to a single line, and truncated with a `[truncated]` prefix and
an ellipsis only when the single-line form still exceeds the cap. -/
def compactMemoryEntry (content : Str) : Str :=
  let trimmed := jsTrim content
  if trimmed = [] then []
  else if trimmed.length ≤ MAX_MEMORY_ENTRY_LENGTH then trimmed
  else
    let singleLine := jsTrim (collapseWs trimmed)
    if singleLine.length ≤ MAX_MEMORY_ENTRY_LENGTH then singleLine
    else
      let pre := str "[truncated] "
      let remaining := MAX_MEMORY_ENTRY_LENGTH - pre.length - 1
      pre ++ jsTrimEnd (singleLine.take remaining) ++ str "…"

/-! ## Context-manager pruning (`context-manager.ts`) -/

/-- A conversation message. -/
structure ChatMessage where
  role : Str
  content : Str
deriving DecidableEq

/-- Modelled platform built-in `parseInt` (no radix argument): skip leading
whitespace, optional sign, then a maximal run of decimal digits — or of hex
digits after a `0x`/`0X` prefix — stopping at the first other character;
`none` when no digit follows (`NaN`). -/
def jsParseInt (s0 : Str) : Option Int :=
  let s := s0.dropWhile jsWs
  let sign : Int := if s.head? = some '-' then -1 else 1
  let s1 := match s with | '-' :: r => r | '+' :: r => r | _ => s
  let hex :=
    match s1 with
    | '0' :: c :: r => if c = 'x' ∨ c = 'X' then some r else none
    | _ => none
  match hex with
  | some r =>
    let hx := r.takeWhile (fun d => d.isDigit || ('a' ≤ d ∧ d ≤ 'f') || ('A' ≤ d ∧ d ≤ 'F'))
    if hx = [] then none
    else
      some (sign * (hx.foldl (fun acc c =>
        acc * 16 +
          (if c.isDigit then c.toNat - '0'.toNat
           else if 'a' ≤ c then c.toNat - 'a'.toNat + 10
           else c.toNat - 'A'.toNat + 10)) 0 : Nat))
  | none =>
    let ds := s1.takeWhile Char.isDigit
    if ds = [] then none
    else some (sign * (ds.foldl (fun acc c => acc * 10 + (c.toNat - '0'.toNat)) 0 : Nat))

/-- The `DeleteMessages` fork tool on one `indexes` argument: parse the
comma-separated integers, drop `NaN`s, and retain only indices strictly
greater than `0` and strictly less than the history size. -/
def deleteMessagesIdxs (historyLen : Nat) (indexes : Str) : List Int :=
  (((List.splitOn ',' indexes).map (fun t => jsParseInt (jsTrim t))).filterMap id).filter
    (fun i => decide (0 < i) && decide (i < (historyLen : Int)))

/-- The shared delete-set accumulated over a fork run, given the `indexes`
argument of each `DeleteMessages` call the fork agent made, in order. -/
def manageContextDeletes (historyLen : Nat) (deleteArgs : List Str) : List Int :=
  deleteArgs.flatMap (deleteMessagesIdxs historyLen)

/-- The final step of `manageContextFork`: remove the marked indices from the
outer conversation's history (`history.filter((_, i) => !deleteSet.has(i))`). -/
def pruneHistory (history : List ChatMessage) (dels : List Int) : List ChatMessage :=
  (history.enum.filter (fun p => !(dels.contains ((p.1 : Nat) : Int)))).map (fun p => p.2)

/-! ## Trace observations and concrete fixtures -/

/-- Events visible as `toolStart`/`toolDone` on the Effects surface. -/
def isToolEvent : Ev → Bool
  | .toolStart _ _ => true
  | .toolDone _ _ _ => true
  | _ => false

def isToolStart : Ev → Bool
  | .toolStart _ _ => true
  | _ => false

def isToolDone : Ev → Bool
  | .toolDone _ _ _ => true
  | _ => false

/-- The `toolStart`/`toolDone` subsequence of a trace. -/
def toolEvents (evs : List Ev) : List Ev :=
  evs.filter isToolEvent

/-- An oracle environment with an empty registry, used to evaluate the
embedding at concrete inputs. -/
def envEmpty : Env where
  registry := fun _ => none
  confirmAns := fun _ => true
  askAns := fun _ => []
  manageCtxRes := fun _ => []
  spawnRes := fun _ => { success := false, summary := [], exitCode := 1, stdout := [], stderr := [] }
  installRes := fun _ => []
  listToolsRes := []
  responses := fun _ => []

/-- A concrete `Echo` tool for evaluating the Invoke step. -/
def echoTool : ToolDefinition where
  name := str "Echo"
  description := str "echo the message"
  arguments := [{ name := str "message", description := str "the message" }]
  execute := fun args => .ok ((args.head?.map (fun p => p.2)).getD [])
  askPermission := none

/-- `envEmpty` with `Echo` registered. -/
def envEcho : Env :=
  { envEmpty with registry := fun n => if n = str "Echo" then some echoTool else none }

/-- The effect a memory form performs (only applied to `Remember`/`Forget`
forms; other tags do not occur in a memory prefix). -/
def memEv : Form → Ev
  | .remember r _ => .rememberEv r
  | .forget c _ => .forgetEv c
  | _ => .streamDone

/-- The trace of a memory prefix. -/
def memEvs (ms : List Form) : List Ev := ms.map memEv

/-- The body of a `<tools>` region consisting of `<tool>` elements with
separator text after each one: each pair `(b, sep)` contributes
`<tool>b</tool>sep`. -/
def flatE (ps : List (Str × Str)) : Str :=
  ps.flatMap (fun p => tagToolOpen ++ p.1 ++ tagToolClose ++ p.2)

/-- The filter state while suppressing inside a `<tools>` container. -/
def suppSt (bufR : Str) (processed : Nat) : SF :=
  { state := .suppressing, bufR := bufR, closingTags := [tagToolsClose],
    currentOpeningTag := tagToolsOpen, nestingDepth := 0, isToolContainer := true,
    processedToolCount := processed }

/-! # Theorems

General helper lemmas first, then the claim theorems. -/

theorem mem_of_mem_dropWhile {p : Char → Bool} {s : Str} {c : Char}
    (h : c ∈ s.dropWhile p) : c ∈ s :=
  (List.dropWhile_sublist (l := s) (p := p)).mem h

theorem mem_of_mem_jsTrim {s : Str} {c : Char} (h : c ∈ jsTrim s) : c ∈ s := by
  unfold jsTrim at h
  rw [List.mem_reverse] at h
  have h2 := mem_of_mem_dropWhile h
  rw [List.mem_reverse] at h2
  exact mem_of_mem_dropWhile h2

theorem mem_of_mem_jsTrimEnd {s : Str} {c : Char} (h : c ∈ jsTrimEnd s) : c ∈ s := by
  unfold jsTrimEnd at h
  rw [List.mem_reverse] at h
  have h2 := mem_of_mem_dropWhile h
  rw [List.mem_reverse] at h2
  exact h2

theorem jsTrim_length_le (s : Str) : (jsTrim s).length ≤ s.length := by
  unfold jsTrim
  calc ((s.dropWhile jsWs).reverse.dropWhile jsWs).reverse.length
      ≤ (s.dropWhile jsWs).reverse.length := by
        rw [List.length_reverse]
        exact (List.dropWhile_sublist _).length_le
    _ ≤ s.length := by
        rw [List.length_reverse]
        exact (List.dropWhile_sublist _).length_le

theorem jsTrimEnd_length_le (s : Str) : (jsTrimEnd s).length ≤ s.length := by
  unfold jsTrimEnd
  rw [List.length_reverse]
  calc (s.reverse.dropWhile jsWs).length ≤ s.reverse.length := (List.dropWhile_sublist _).length_le
    _ = s.length := List.length_reverse s

theorem collapseGo_mem {flag : Bool} {s : Str} {c : Char} (h : c ∈ collapseGo flag s) :
    c = ' ' ∨ jsWs c = false := by
  induction s generalizing flag with
  | nil => simp [collapseGo] at h
  | cons a rest ih =>
    rw [collapseGo] at h
    by_cases ha : jsWs a
    · rw [if_pos ha] at h
      by_cases hf : flag
      · rw [if_pos hf] at h; exact ih h
      · rw [if_neg hf] at h
        rcases List.mem_cons.mp h with h1 | h1
        · exact Or.inl h1
        · exact ih h1
    · rw [if_neg ha] at h
      rcases List.mem_cons.mp h with h1 | h1
      · subst h1; exact Or.inr (by simpa using ha)
      · exact ih h1

/-- Claim C6 counterexample: an input whose trimmed content exceeds the
500-character cap but whose whitespace-collapsed form fits is returned as the
collapsed line, without any `[truncated]` prefix. -/
theorem claim_c6_counterexample :
    MAX_MEMORY_ENTRY_LENGTH <
        (jsTrim (['a'] ++ List.replicate 501 ' ' ++ ['b'])).length
      ∧ compactMemoryEntry (['a'] ++ List.replicate 501 ' ' ++ ['b']) = ['a', ' ', 'b']
      ∧ (str "[truncated] ").isPrefixOf
          (compactMemoryEntry (['a'] ++ List.replicate 501 ' ' ++ ['b'])) = false := by
  decide

/-- Claim C6 (amended): for every input whose trimmed content exceeds the
500-character cap, `compactMemoryEntry` returns a result with no newline of
length at most 500; the result carries the `[truncated] ` prefix when even
the whitespace-collapsed single-line form exceeds the cap. -/
theorem claim_c6 (x : Str) (h : MAX_MEMORY_ENTRY_LENGTH < (jsTrim x).length) :
    '\n' ∉ compactMemoryEntry x
      ∧ (compactMemoryEntry x).length ≤ MAX_MEMORY_ENTRY_LENGTH
      ∧ (MAX_MEMORY_ENTRY_LENGTH < (jsTrim (collapseWs (jsTrim x))).length →
          (str "[truncated] ").isPrefixOf (compactMemoryEntry x) = true) := by
  have htrim : ¬ jsTrim x = [] := by
    intro he
    rw [he] at h
    simp [MAX_MEMORY_ENTRY_LENGTH] at h
  have hlen : ¬ (jsTrim x).length ≤ MAX_MEMORY_ENTRY_LENGTH := by omega
  unfold compactMemoryEntry
  rw [if_neg htrim, if_neg hlen]
  have hnoNl : ∀ c, c ∈ jsTrim (collapseWs (jsTrim x)) → c ≠ '\n' := by
    intro c hc
    have := collapseGo_mem (mem_of_mem_jsTrim hc)
    rcases this with h1 | h1
    · subst h1; decide
    · intro he; subst he; simp [jsWs] at h1
  by_cases hsl : (jsTrim (collapseWs (jsTrim x))).length ≤ MAX_MEMORY_ENTRY_LENGTH
  · rw [if_pos hsl]
    refine ⟨fun hmem => hnoNl _ hmem rfl, hsl, fun hgt => absurd hsl (by omega)⟩

  · rw [if_neg hsl]
    refine ⟨?_, ?_, fun _ => ?_⟩
    · intro hmem
      rw [List.mem_append, List.mem_append] at hmem
      rcases hmem with (hmem | hmem) | hmem
      · revert hmem; decide
      · exact hnoNl _ (List.mem_of_mem_take (mem_of_mem_jsTrimEnd hmem)) rfl
      · revert hmem; decide
    · simp only [List.length_append]
      have h2 : (str "[truncated] ").length = 12 := by decide
      have h3 : (str "…").length = 1 := by decide
      rw [h2, h3]
      simp only [MAX_MEMORY_ENTRY_LENGTH]
      have h1 : (jsTrimEnd ((jsTrim (collapseWs (jsTrim x))).take (500 - 12 - 1))).length ≤ 487 := by
        refine le_trans (jsTrimEnd_length_le _) ?_
        refine le_trans (List.length_take_le _ _) ?_
        decide
      omega
    · rw [List.isPrefixOf_iff_prefix, List.append_assoc]
      exact List.prefix_append _ _

/-- Claim C6 witness: the amended theorem applied at a concrete over-cap
input (700 copies of `y` after an `x`, collapsing to itself). -/
theorem claim_c6_witness :
    MAX_MEMORY_ENTRY_LENGTH < (jsTrim (['x'] ++ List.replicate 700 'y')).length
      ∧ '\n' ∉ compactMemoryEntry (['x'] ++ List.replicate 700 'y')
      ∧ (compactMemoryEntry (['x'] ++ List.replicate 700 'y')).length ≤ MAX_MEMORY_ENTRY_LENGTH
      ∧ (str "[truncated] ").isPrefixOf (compactMemoryEntry (['x'] ++ List.replicate 700 'y')) =
          true := by
  have h : MAX_MEMORY_ENTRY_LENGTH < (jsTrim (['x'] ++ List.replicate 700 'y')).length := by
    decide
  obtain ⟨h1, h2, h3⟩ := claim_c6 (['x'] ++ List.replicate 700 'y') h
  exact ⟨h, h1, h2, h3 (by decide)⟩

theorem manageContextDeletes_bounds (historyLen : Nat) (deleteArgs : List Str) :
    ∀ i ∈ manageContextDeletes historyLen deleteArgs, 0 < i ∧ i < (historyLen : Int) := by
  intro i hi
  unfold manageContextDeletes at hi
  rw [List.mem_flatMap] at hi
  obtain ⟨arg, _, hmem⟩ := hi
  unfold deleteMessagesIdxs at hmem
  have h := List.of_mem_filter hmem
  simpa using h

/-- Claim C8: over any run of the context-manager fork (any sequence of
`DeleteMessages` arguments), the accumulated delete-set contains only indices
strictly between `0` and the history size, so the pruned history still begins
with the original message at index 0. -/
theorem claim_c8 (history : List ChatMessage) (deleteArgs : List Str) :
    (∀ i ∈ manageContextDeletes history.length deleteArgs,
        0 < i ∧ i < (history.length : Int))
      ∧ (pruneHistory history (manageContextDeletes history.length deleteArgs)).head? =
          history.head? := by
  refine ⟨manageContextDeletes_bounds _ _, ?_⟩
  cases history with
  | nil => rfl
  | cons m rest =>
    have h0 : ((0 : Int) ∈ manageContextDeletes (m :: rest).length deleteArgs) → False := by
      intro hmem
      have := (manageContextDeletes_bounds (m :: rest).length deleteArgs) 0 hmem
      omega
    unfold pruneHistory
    rw [List.enum_cons, List.filter_cons]
    have hc : ((manageContextDeletes (m :: rest).length deleteArgs).contains
        (((0, m).1 : Nat) : Int)) = false := by
      show ((manageContextDeletes (m :: rest).length deleteArgs).elem ((0 : Nat) : Int)) = false
      rw [List.elem_eq_mem, decide_eq_false_iff_not]
      exact h0
    rw [hc]
    simp

/-- Claim C8 witness: a concrete three-message history with a delete request
naming indices 0, 1 and 5 still begins with the original first message. -/
theorem claim_c8_witness :
    (pruneHistory
        [⟨str "system", str "S"⟩, ⟨str "user", str "U"⟩, ⟨str "assistant", str "A"⟩]
        (manageContextDeletes 3 [str "0, 1, 5"])).head? =
      some ⟨str "system", str "S"⟩ :=
  (claim_c8 [⟨str "system", str "S"⟩, ⟨str "user", str "U"⟩, ⟨str "assistant", str "A"⟩]
    [str "0, 1, 5"]).2

/-- Claim C7: a call whose name is not `AskUser`/`ManageContext` and does not
resolve in the registry synthesizes `success: false` with output
`Unknown tool: NAME`, emits only `toolDone(false, …)` for it, and the loop
continues with the remaining calls.  (In the embedding the Invoke step is a
total function — the unknown-tool condition is captured as a result and
cannot propagate as an exception.) -/
theorem claim_c7 (env : Env) (c : ToolCall) (cs : List ToolCall)
    (h1 : c.name ≠ str "AskUser") (h2 : c.name ≠ str "ManageContext")
    (h3 : env.registry c.name = none) :
    runCall env c =
        ([.toolDone c.name false (str "Unknown tool: " ++ c.name)],
         ⟨c.name, str "Unknown tool: " ++ c.name, false⟩)
      ∧ runCalls env (c :: cs) =
          (Ev.toolDone c.name false (str "Unknown tool: " ++ c.name) :: (runCalls env cs).1,
           (⟨c.name, str "Unknown tool: " ++ c.name, false⟩ : ToolResult) ::
             (runCalls env cs).2) := by
  have hrc : runCall env c =
      ([.toolDone c.name false (str "Unknown tool: " ++ c.name)],
       ⟨c.name, str "Unknown tool: " ++ c.name, false⟩) := by
    unfold runCall
    rw [if_neg h1, if_neg h2, h3]
  refine ⟨hrc, ?_⟩
  show (let x := runCall env c
        let y := runCalls env cs
        (x.1 ++ y.1, x.2 :: y.2)) = _
  rw [hrc]
  rfl

/-- Claim C7 witness: two unknown calls in a row both produce synthesized
failures, in order. -/
theorem claim_c7_witness :
    runCalls envEmpty [⟨str "NonExistent", [str "arg"]⟩, ⟨str "Other", []⟩] =
      ([.toolDone (str "NonExistent") false (str "Unknown tool: NonExistent"),
        .toolDone (str "Other") false (str "Unknown tool: Other")],
       [⟨str "NonExistent", str "Unknown tool: NonExistent", false⟩,
        ⟨str "Other", str "Unknown tool: Other", false⟩]) := by
  have h := (claim_c7 envEmpty ⟨str "NonExistent", [str "arg"]⟩ [⟨str "Other", []⟩]
    (by decide) (by decide) rfl).2
  rw [h]
  decide

/-- Claim C1 counterexample: the batch `[NonExistent("arg")]` (no Reboot, no
CompleteTask) makes the Invoke step emit one `toolDone` and no `toolStart` —
not one `toolStart`/`toolDone` pair per call. -/
theorem claim_c1_counterexample :
    (evalInvokeStep envEmpty 0 [⟨str "NonExistent", [str "arg"]⟩]).1 =
        [.toolDone (str "NonExistent") false (str "Unknown tool: NonExistent")]
      ∧ ((evalInvokeStep envEmpty 0 [⟨str "NonExistent", [str "arg"]⟩]).1.countP isToolStart = 0
      ∧ (evalInvokeStep envEmpty 0 [⟨str "NonExistent", [str "arg"]⟩]).1.countP isToolDone = 1) := by
  decide

theorem runCall_pair (env : Env) (c : ToolCall)
    (hknown : c.name = str "AskUser" ∨ c.name = str "ManageContext" ∨
      (env.registry c.name).isSome)
    (hconf : ∀ s, env.confirmAns s = true) :
    ∃ pv ok out,
      toolEvents (runCall env c).1 = [.toolStart c.name pv, .toolDone c.name ok out] := by
  by_cases hA : c.name = str "AskUser"
  · refine ⟨(c.rawArgs.head?.getD (str "What would you like to do?")).take 60,
      true, str "answered", ?_⟩
    unfold runCall
    rw [if_pos hA, hA]
    rfl
  · by_cases hM : c.name = str "ManageContext"
    · refine ⟨(c.rawArgs.head?.getD (str "Prune stale messages")).take 60, true,
        env.manageCtxRes (c.rawArgs.head?.getD (str "Prune stale messages")), ?_⟩
      unfold runCall
      rw [if_neg hA, if_pos hM, hM]
      rfl
    · rcases hknown with h | h | h
      · exact absurd h hA
      · exact absurd h hM
      · rw [Option.isSome_iff_exists] at h
        obtain ⟨tool, htool⟩ := h
        have hrun : runCall env c = runResolved env tool c := by
          unfold runCall
          rw [if_neg hA, if_neg hM, htool]
        rw [hrun]
        have hexec : ∃ pv ok out, toolEvents (execCall tool c).1 =
            [Ev.toolStart c.name pv, Ev.toolDone c.name ok out] := by
          unfold execCall
          cases tool.execute (buildArgs tool c.rawArgs) with
          | ok output => exact ⟨_, _, _, rfl⟩
          | error msg => exact ⟨_, _, _, rfl⟩
        cases hd : dangerOf tool c with
        | some d =>
          have hone : runResolved env tool c =
              (Ev.confirmEv d :: (execCall tool c).1, (execCall tool c).2) := by
            unfold runResolved
            simp only [hd, hconf d, if_true]
          rw [hone]
          obtain ⟨pv, ok, out, he⟩ := hexec
          refine ⟨pv, ok, out, ?_⟩
          unfold toolEvents at he ⊢
          rw [List.filter_cons]
          simpa using he
        | none =>
          have hone : runResolved env tool c = execCall tool c := by
            unfold runResolved
            simp only [hd]
          rw [hone]
          exact hexec

theorem toolEvents_append (a b : List Ev) :
    toolEvents (a ++ b) = toolEvents a ++ toolEvents b := by
  unfold toolEvents
  exact List.filter_append _ _

theorem toolEvents_runCalls (env : Env) (calls : List ToolCall) :
    toolEvents (runCalls env calls).1 =
      calls.flatMap (fun c => toolEvents (runCall env c).1) := by
  induction calls with
  | nil => rfl
  | cons c cs ih =>
    show toolEvents ((runCall env c).1 ++ (runCalls env cs).1) = _
    rw [toolEvents_append, ih]
    rfl

/-- Claim C1 (amended): for a batch with no Reboot/CompleteTask call in which
every call is handled inline (`AskUser`/`ManageContext`) or resolves in the
registry, with every confirmation answered positively, and with the tool-call
counter staying below the prune threshold, the Invoke step emits exactly one
`toolStart`/`toolDone` pair per call, paired up (same call name, start before
done) and in input order.  (As stated, the claim fails for unknown tools and
denied confirmations, which emit a `toolDone` with no `toolStart` — see the
counterexample.) -/
theorem claim_c1 (env : Env) (counter : Nat) (calls : List ToolCall)
    (_hterm : ∀ c ∈ calls, c.name ≠ str "Reboot" ∧ c.name ≠ str "CompleteTask")
    (hknown : ∀ c ∈ calls, c.name = str "AskUser" ∨ c.name = str "ManageContext" ∨
      (env.registry c.name).isSome)
    (hconf : ∀ s, env.confirmAns s = true)
    (hcap : counter + calls.length < CONTEXT_PRUNE_INTERVAL) :
    toolEvents (evalInvokeStep env counter calls).1 =
        calls.flatMap (fun c => toolEvents (runCall env c).1)
      ∧ ∀ c ∈ calls, ∃ pv ok out,
          toolEvents (runCall env c).1 = [.toolStart c.name pv, .toolDone c.name ok out] := by
  constructor
  · unfold evalInvokeStep
    rw [if_neg (by omega : ¬ CONTEXT_PRUNE_INTERVAL ≤ counter + calls.length)]
    by_cases hr : calls.any (fun c => c.name == str "Reload")
    · rw [if_pos hr, toolEvents_append, toolEvents_runCalls]
      have h1 : toolEvents [Ev.refreshSystem] = [] := rfl
      rw [h1, List.append_nil]
    · rw [if_neg hr, toolEvents_runCalls]
  · intro c hc
    exact runCall_pair env c (hknown c hc) hconf

/-- Claim C1 witness: a two-call `Echo` batch emits exactly its two pairs. -/
theorem claim_c1_witness :
    toolEvents (evalInvokeStep envEcho 0
        [⟨str "Echo", [str "one"]⟩, ⟨str "Echo", [str "two"]⟩]).1 =
      [.toolStart (str "Echo") (str "\"one\""), .toolDone (str "Echo") true (str "ok"),
       .toolStart (str "Echo") (str "\"two\""), .toolDone (str "Echo") true (str "ok")] := by
  have h := (claim_c1 envEcho 0 [⟨str "Echo", [str "one"]⟩, ⟨str "Echo", [str "two"]⟩]
    (by decide) (by decide) (fun _ => rfl) (by decide)).1
  rw [h]
  decide

theorem formFor_reboot (p : ParsedResponse) (rc : ToolCall)
    (h : rebootCallOf p = some rc) :
    formFor p =
      (if regularCallsOf p ≠ [] then
        Form.invoke (regularCallsOf p)
          (fun _ => Form.reboot (rc.rawArgs.head?.getD (str "Reboot requested")))
      else Form.reboot (rc.rawArgs.head?.getD (str "Reboot requested"))) := by
  have hne : p.toolCalls ≠ [] :=
    List.ne_nil_of_mem (List.mem_of_find?_eq_some h)
  unfold formFor
  rw [if_neg hne, h]

theorem formFor_complete (p : ParsedResponse) (cc : ToolCall)
    (hr : rebootCallOf p = none) (h : completeCallOf p = some cc) :
    formFor p =
      (if regularCallsOf p ≠ [] then
        Form.invoke (regularCallsOf p)
          (fun _ => Form.done (cc.rawArgs.head?.getD (str "Task complete")))
      else Form.done (cc.rawArgs.head?.getD (str "Task complete"))) := by
  have hne : p.toolCalls ≠ [] :=
    List.ne_nil_of_mem (List.mem_of_find?_eq_some h)
  unfold formFor
  rw [if_neg hne, hr, h]

/-- Claim C2: when the parsed tool calls contain both a `Reboot` and a
`CompleteTask` call, `parseToForm` builds the Reboot terminal (Reboot wins,
checked first); and whenever a terminal call coexists with regular calls, the
terminal is wrapped as `Invoke(regularCalls, _ ↦ terminal)` so the regular
invocations run first. -/
theorem claim_c2 (text : Str) :
    (∀ rc, rebootCallOf (parseResponse text) = some rc →
      (∃ cc, completeCallOf (parseResponse text) = some cc) →
      parseToForm text =
        withMemory (parseResponse text)
          (if regularCallsOf (parseResponse text) ≠ [] then
            Form.invoke (regularCallsOf (parseResponse text))
              (fun _ => Form.reboot (rc.rawArgs.head?.getD (str "Reboot requested")))
          else Form.reboot (rc.rawArgs.head?.getD (str "Reboot requested"))))
    ∧ (∀ rc, rebootCallOf (parseResponse text) = some rc →
        regularCallsOf (parseResponse text) ≠ [] →
        parseToForm text =
          withMemory (parseResponse text)
            (Form.invoke (regularCallsOf (parseResponse text))
              (fun _ => Form.reboot (rc.rawArgs.head?.getD (str "Reboot requested")))))
    ∧ (∀ cc, rebootCallOf (parseResponse text) = none →
        completeCallOf (parseResponse text) = some cc →
        regularCallsOf (parseResponse text) ≠ [] →
        parseToForm text =
          withMemory (parseResponse text)
            (Form.invoke (regularCallsOf (parseResponse text))
              (fun _ => Form.done (cc.rawArgs.head?.getD (str "Task complete"))))) := by
  refine ⟨?_, ?_, ?_⟩
  · intro rc hrc _hcc
    show withMemory (parseResponse text) (formFor (parseResponse text)) = _
    rw [formFor_reboot _ _ hrc]
  · intro rc hrc hreg
    show withMemory (parseResponse text) (formFor (parseResponse text)) = _
    rw [formFor_reboot _ _ hrc, if_pos hreg]
  · intro cc hrn hcc hreg
    show withMemory (parseResponse text) (formFor (parseResponse text)) = _
    rw [formFor_complete _ _ hrn hcc, if_pos hreg]

/-- Claim C2 witness: a response carrying `Echo`, `Reboot("r")` and
`CompleteTask("s")` parses to `Invoke([Echo], _ ↦ Reboot("r"))` — Reboot wins
over CompleteTask, and the regular call is wrapped to run first. -/
theorem claim_c2_witness :
    parseToForm (str "<tools><tool>Echo(\"x\")</tool><tool>Reboot(\"r\")</tool><tool>CompleteTask(\"s\")</tool></tools>") =
      Form.invoke [⟨str "Echo", [str "x"]⟩] (fun _ => Form.reboot (str "r")) := by
  have h := (claim_c2 (str "<tools><tool>Echo(\"x\")</tool><tool>Reboot(\"r\")</tool><tool>CompleteTask(\"s\")</tool></tools>")).1
    ⟨str "Reboot", [str "r"]⟩ (by decide) ⟨⟨str "CompleteTask", [str "s"]⟩, by decide⟩
  rw [h]
  rfl

/-- Claim C4: a `Bash` call whose first argument tokenizes to a command whose
first token has basename `gloop` and whose flags carry a task is converted to
a spawn task with the extracted task string, and `parseToForm` builds a
`Spawn` form for it; a `Bash` call that merely mentions `gloop` inside a
quoted argument is not converted and remains a regular tool invocation. -/
theorem claim_c4 :
    (∀ (call : ToolCall) (cmd t0 : Str) (rest : List Str) (req : TaskRequest),
        call.name = str "Bash" → call.rawArgs.head? = some cmd →
        splitShellCommand cmd = some (t0 :: rest) →
        isGloopCommand t0 = true →
        parseTaskRequestTokens rest = some req →
        asSpawnTask call = some req.task)
      ∧ formFor ⟨[⟨str "Bash", [str "gloop --task \"do x\" --model m/n"]⟩], [], [], []⟩ =
          Form.spawn (str "do x")
            (fun r => Form.emit (formatResults [spawnToToolResult r]) (Form.think []))
      ∧ asSpawnTask ⟨str "Bash", [str "echo \"gloop --task \\\"hi\\\"\""]⟩ = none
      ∧ formFor ⟨[⟨str "Bash", [str "echo \"gloop --task \\\"hi\\\"\""]⟩], [], [], []⟩ =
          Form.invoke [⟨str "Bash", [str "echo \"gloop --task \\\"hi\\\"\""]⟩]
            (fun results => Form.think (formatResults results)) := by
  refine ⟨?_, rfl, by decide, rfl⟩
  intro call cmd t0 rest req hname hhead hsplit hglp hreq
  unfold asSpawnTask
  rw [if_neg (by simp [hname])]
  have h1 : parseGloopTaskBashCommand (call.rawArgs.head?.getD []) = some req := by
    rw [hhead, Option.getD_some]
    unfold parseGloopTaskBashCommand
    rw [hsplit]
    simp [hglp, hreq]
  simp [h1]

/-- Claim C4 witness: the general detection applied to the concrete command
`gloop --task "do x" --model m/n` extracts the task `do x`. -/
theorem claim_c4_witness :
    asSpawnTask ⟨str "Bash", [str "gloop --task \"do x\" --model m/n"]⟩ =
      some (str "do x") :=
  (claim_c4).1 ⟨str "Bash", [str "gloop --task \"do x\" --model m/n"]⟩
    (str "gloop --task \"do x\" --model m/n") (str "gloop")
    [str "--task", str "do x", str "--model", str "m/n"]
    ⟨str "do x", some (str "m/n"), none, false⟩
    rfl rfl (by decide) (by decide) (by decide)

theorem memEvs_memoryFormsOf (p : ParsedResponse) :
    memEvs (memoryFormsOf p) =
      p.remembers.map Ev.rememberEv ++ p.forgets.map Ev.forgetEv := by
  unfold memEvs memoryFormsOf
  rw [List.map_append, List.map_map, List.map_map]
  rfl

theorem memoryFormsOf_shape (p : ParsedResponse) :
    ∀ m ∈ memoryFormsOf p,
      (∃ r, m = Form.remember r Form.nil) ∨ ∃ c, m = Form.forget c Form.nil := by
  intro m hm
  unfold memoryFormsOf at hm
  rw [List.mem_append] at hm
  rcases hm with h | h <;> rw [List.mem_map] at h <;> obtain ⟨a, _, ha⟩ := h
  · exact Or.inl ⟨a, ha.symm⟩
  · exact Or.inr ⟨a, ha.symm⟩

theorem evalF_seq_memPrefix (ms : List Form) :
    ∀ (tail : List Form) (f : Nat) (env : Env) (w : WState),
      (∀ m ∈ ms, (∃ r, m = Form.remember r Form.nil) ∨ ∃ c, m = Form.forget c Form.nil) →
      ms.length < f →
      (evalF f (Form.seq (ms ++ tail)) env w).1 =
          memEvs ms ++ (evalF (f - ms.length) (Form.seq tail) env w).1
        ∧ (evalF f (Form.seq (ms ++ tail)) env w).2.1 =
            (evalF (f - ms.length) (Form.seq tail) env w).2.1 := by
  induction ms with
  | nil =>
    intro tail f env w _ _
    simp [memEvs]
  | cons m ms ih =>
    intro tail f env w hm hf
    rw [List.length_cons] at hf
    cases f with
    | zero => omega
    | succ f' =>
      have hf' : ms.length < f' := by omega
      have hf'pos : 0 < f' := by omega
      have hxm : (evalF f' m env w).1 = [memEv m] ∧ (evalF f' m env w).2.1 = w := by
        cases f' with
        | zero => omega
        | succ f'' =>
          have hnil1 : (evalF f'' Form.nil env w).1 = [] := by cases f'' <;> rfl
          have hnil2 : (evalF f'' Form.nil env w).2.1 = w := by cases f'' <;> rfl
          rcases hm m (List.mem_cons_self m ms) with ⟨r, hr⟩ | ⟨c, hc⟩
          · subst hr
            constructor
            · show Ev.rememberEv r :: (evalF f'' Form.nil env w).1 = _
              rw [hnil1]; rfl
            · show (evalF f'' Form.nil env w).2.1 = w
              exact hnil2
          · subst hc
            constructor
            · show Ev.forgetEv c :: (evalF f'' Form.nil env w).1 = _
              rw [hnil1]; rfl
            · show (evalF f'' Form.nil env w).2.1 = w
              exact hnil2
      have hrec := ih tail f' env w (fun x hx => hm x (List.mem_cons_of_mem m hx)) hf'
      have harith : f' + 1 - (m :: ms).length = f' - ms.length := by
        rw [List.length_cons]; omega
      constructor
      · show (evalF f' m env w).1 ++
            (evalF f' (Form.seq (ms ++ tail)) env (evalF f' m env w).2.1).1 = _
        rw [hxm.1, hxm.2, hrec.1, harith]
        rfl
      · show (evalF f' (Form.seq (ms ++ tail)) env (evalF f' m env w).2.1).2.1 = _
        rw [hxm.2, hrec.2, harith]

theorem evalF_seq_single (g' : Nat) (X : Form) (env : Env) (w : WState) :
    (evalF (g' + 1) (Form.seq [X]) env w).1 = (evalF g' X env w).1 := by
  show (evalF g' X env w).1 ++
      (evalF g' (Form.seq []) env (evalF g' X env w).2.1).1 = _
  have h : (evalF g' (Form.seq []) env (evalF g' X env w).2.1).1 = [] := by
    cases g' <;> rfl
  rw [h, List.append_nil]

/-- Claim C5: when a response yields memory operations and tool calls,
evaluating its form performs all remember effects first, then all forget
effects, and only then the trace of the response's tool-batch form (so every
`toolStart` / tool-execution effect comes after the memory effects). -/
theorem claim_c5 (text : Str) (f : Nat) (env : Env) (w : WState)
    (hmem : memoryFormsOf (parseResponse text) ≠ [])
    (_htools : (parseResponse text).toolCalls ≠ [])
    (hf : (memoryFormsOf (parseResponse text)).length + 2 ≤ f) :
    (evalF f (parseToForm text) env w).1 =
      (parseResponse text).remembers.map Ev.rememberEv
        ++ (parseResponse text).forgets.map Ev.forgetEv
        ++ (evalF (f - (memoryFormsOf (parseResponse text)).length - 1)
              (formFor (parseResponse text)) env w).1 := by
  have hform : parseToForm text =
      Form.seq (memoryFormsOf (parseResponse text) ++ [formFor (parseResponse text)]) := by
    unfold parseToForm withMemory
    rw [if_pos (List.length_pos.mpr hmem)]
  rw [hform]
  have hpre := (evalF_seq_memPrefix (memoryFormsOf (parseResponse text))
    [formFor (parseResponse text)] f env w
    (memoryFormsOf_shape (parseResponse text)) (by omega)).1
  rw [hpre, memEvs_memoryFormsOf, List.append_assoc]
  have hg : f - (memoryFormsOf (parseResponse text)).length =
      (f - (memoryFormsOf (parseResponse text)).length - 1) + 1 := by omega
  rw [hg, evalF_seq_single]
  simp [List.append_assoc]

/-- Claim C5 witness: a response with one tool call, one remember and one
forget evaluates to remember, then forget, then the tool batch's events. -/
theorem claim_c5_witness :
    (evalF 5 (parseToForm
        (str "<tools><tool>Echo(\"x\")</tool><remember>note</remember><forget>old</forget></tools>"))
        envEmpty ⟨0, 0⟩).1 =
      [.rememberEv (str "note"), .forgetEv (str "old"),
       .toolDone (str "Echo") false (str "Unknown tool: Echo"), .streamDone] := by
  have h := claim_c5
    (str "<tools><tool>Echo(\"x\")</tool><remember>note</remember><forget>old</forget></tools>")
    5 envEmpty ⟨0, 0⟩ (List.length_pos.mp (by decide)) (by decide) (by decide)
  rw [h]
  decide

theorem sfWrite_append (sf : SF) (a b : Str) :
    sfWrite sf (a ++ b) =
      ((sfWrite (sfWrite sf a).1 b).1,
        (sfWrite sf a).2 ++ (sfWrite (sfWrite sf a).1 b).2) := by
  induction a generalizing sf with
  | nil => rfl
  | cons c rest ih =>
    show ((sfWrite (sfStep sf c).1 (rest ++ b)).1,
          (sfStep sf c).2 ++ (sfWrite (sfStep sf c).1 (rest ++ b)).2) = _
    rw [ih]
    show _ = ((sfWrite (sfWrite (sfStep sf c).1 rest).1 b).1,
          ((sfStep sf c).2 ++ (sfWrite (sfStep sf c).1 rest).2) ++
            (sfWrite (sfWrite (sfStep sf c).1 rest).1 b).2)
    rw [List.append_assoc]

theorem sfWriteChunks_flatten (sf : SF) (cs : List Str) :
    sfWriteChunks sf cs = sfWrite sf cs.flatten := by
  induction cs generalizing sf with
  | nil => rfl
  | cons c rest ih =>
    show ((sfWriteChunks (sfWrite sf c).1 rest).1,
          (sfWrite sf c).2 ++ (sfWriteChunks (sfWrite sf c).1 rest).2) = _
    rw [ih]
    show _ = sfWrite sf (c ++ rest.flatten)
    rw [sfWrite_append]

/-- Claim C9: the stream filter's observable behaviour — emitted output and
`onToolParsed` events, including the final `flush()` — depends only on the
concatenation of its input chunks, not on chunk boundaries. -/
theorem claim_c9 (cs1 cs2 : List Str) (h : cs1.flatten = cs2.flatten) :
    runFilter cs1 = runFilter cs2
      ∧ outChars (runFilter cs1) = outChars (runFilter cs2)
      ∧ toolEventsOfOut (runFilter cs1) = toolEventsOfOut (runFilter cs2) := by
  have he : runFilter cs1 = runFilter cs2 := by
    unfold runFilter
    rw [sfWriteChunks_flatten, sfWriteChunks_flatten, h]
  exact ⟨he, by rw [he], by rw [he]⟩

/-- Claim C9 witness: two different chunkings of a text containing a tool
block produce identical filter outputs. -/
theorem claim_c9_witness :
    runFilter [str "Hi <tools><tool>Echo(\"on", str "e\")</tool></to", str "ols> bye"] =
      runFilter [str "Hi <tools><tool>Echo(\"one\")</tool></tools> bye"] :=
  (claim_c9 [str "Hi <tools><tool>Echo(\"on", str "e\")</tool></to", str "ols> bye"]
    [str "Hi <tools><tool>Echo(\"one\")</tool></tools> bye"] (by decide)).1

@[simp] theorem isPrefixOf_cons_cons (a b : Char) (l m : Str) :
    (a :: l).isPrefixOf (b :: m) = ((a == b) && l.isPrefixOf m) := rfl

theorem isPrefixOf_append_self (l r : Str) : l.isPrefixOf (l ++ r) = true := by
  rw [List.isPrefixOf_iff_prefix]
  exact List.prefix_append l r

theorem findFirst_cons_none (pats : List Str) (c : Char) (s : Str)
    (h : pats.find? (fun p => p.isPrefixOf (c :: s)) = none) :
    findFirst pats (c :: s) =
      (findFirst pats s).map (fun x => (c :: x.1, x.2.1, x.2.2)) := by
  rw [findFirst, h]

theorem findFirst_cons_some (pats : List Str) (c : Char) (s : Str) (p : Str)
    (h : pats.find? (fun q => q.isPrefixOf (c :: s)) = some p) :
    findFirst pats (c :: s) = some ([], p, (c :: s).drop p.length) := by
  rw [findFirst, h]

theorem findFirst_cons_not_lt (pats : List Str)
    (hpats : ∀ p ∈ pats, ∃ t, p = '<' :: t)
    (c : Char) (hc : c ≠ '<') (s : Str) :
    findFirst pats (c :: s) =
      (findFirst pats s).map (fun x => (c :: x.1, x.2.1, x.2.2)) := by
  apply findFirst_cons_none
  rw [List.find?_eq_none]
  intro p hp
  obtain ⟨t, rfl⟩ := hpats p hp
  rw [isPrefixOf_cons_cons]
  simp [Ne.symm hc]

theorem findFirst_append_clean (pats : List Str)
    (hpats : ∀ p ∈ pats, ∃ t, p = '<' :: t)
    (w : Str) (hw : '<' ∉ w) (s : Str) :
    findFirst pats (w ++ s) =
      (findFirst pats s).map (fun x => (w ++ x.1, x.2.1, x.2.2)) := by
  induction w with
  | nil =>
    rw [List.nil_append]
    cases h : findFirst pats s <;> simp [h]
  | cons c rest ih =>
    rw [List.cons_append,
      findFirst_cons_not_lt pats hpats c (fun he => hw (he ▸ List.mem_cons_self c rest)) _,
      ih (fun hm => hw (List.mem_cons_of_mem c hm))]
    cases h : findFirst pats s <;> simp [h]

theorem suffix_append_cases {t a b : Str} (h : t <:+ a ++ b) :
    t <:+ b ∨ ∃ t', t' <:+ a ∧ t' ≠ [] ∧ t = t' ++ b := by
  obtain ⟨p, hp⟩ := h
  rcases List.append_eq_append_iff.mp hp with ⟨a', ha1, ha2⟩ | ⟨c', _hc1, hc2⟩
  · cases a' with
    | nil =>
      left
      rw [ha2]
      exact List.suffix_refl b
    | cons x xs =>
      right
      exact ⟨x :: xs, ⟨p, ha1.symm⟩, by simp, ha2⟩
  · left
    exact ⟨c', hc2.symm⟩

theorem extractTF_cons_some (opn : Str) (cl : List Str) (f : Nat) (c : Char) (rest : Str)
    (x : Str × Str × Str) (h : scanAt opn cl (c :: rest) = some x) :
    extractTF opn cl (f + 1) (c :: rest) =
      (x.1 :: (extractTF opn cl f x.2.2).1, (extractTF opn cl f x.2.2).2) := by
  rw [extractTF, h]

theorem extractTF_cons_none (opn : Str) (cl : List Str) (f : Nat) (c : Char) (rest : Str)
    (h : scanAt opn cl (c :: rest) = none) :
    extractTF opn cl (f + 1) (c :: rest) =
      ((extractTF opn cl f rest).1, c :: (extractTF opn cl f rest).2) := by
  rw [extractTF, h]

theorem scanAt_some_length (opn : Str) (cl : List Str) (s : Str) (x : Str × Str × Str)
    (hopn : opn ≠ []) (h : scanAt opn cl s = some x) :
    x.2.2.length + 1 ≤ s.length := by
  unfold scanAt at h
  by_cases hp : opn.isPrefixOf s
  · rw [if_pos hp] at h
    obtain ⟨b, p, a⟩ := x
    obtain ⟨hsplit, _⟩ := findFirst_eq_some cl _ b p a h
    have h1 : (s.drop opn.length).length = b.length + p.length + a.length := by
      rw [hsplit]
      simp [List.length_append]
      omega
    have h2 : (s.drop opn.length).length = s.length - opn.length := by simp
    rw [List.isPrefixOf_iff_prefix] at hp
    have h3 : opn.length ≤ s.length := hp.length_le
    have h4 : 1 ≤ opn.length := by
      cases opn with
      | nil => exact absurd rfl hopn
      | cons _ _ => simp
    simp only []
    omega
  · rw [if_neg hp] at h
    exact absurd h (by simp)

theorem extractTF_fuel_eq (opn : Str) (cl : List Str) (hopn : opn ≠ []) :
    ∀ (n : Nat) (s : Str), s.length ≤ n → ∀ f, s.length ≤ f →
      extractTF opn cl f s = extractTagged opn cl s := by
  intro n
  induction n with
  | zero =>
    intro s hs f _
    have : s = [] := List.length_eq_zero.mp (Nat.le_zero.mp hs)
    subst this
    cases f <;> rfl
  | succ n ih =>
    intro s hs f hf
    cases s with
    | nil => cases f <;> rfl
    | cons c rest =>
      rw [List.length_cons] at hs hf
      cases f with
      | zero => omega
      | succ f' =>
        unfold extractTagged
        rw [List.length_cons]
        cases hsc : scanAt opn cl (c :: rest) with
        | some x =>
          have hlen := scanAt_some_length opn cl (c :: rest) x hopn hsc
          rw [List.length_cons] at hlen
          rw [extractTF_cons_some opn cl f' c rest x hsc,
            extractTF_cons_some opn cl rest.length c rest x hsc,
            ih x.2.2 (by omega) f' (by omega),
            ih x.2.2 (by omega) rest.length (by omega)]
        | none =>
          rw [extractTF_cons_none opn cl f' c rest hsc,
            extractTF_cons_none opn cl rest.length c rest hsc,
            ih rest (by omega) f' (by omega),
            ih rest (by omega) rest.length (by omega)]

theorem extractTagged_cons_some (opn : Str) (cl : List Str) (hopn : opn ≠ [])
    (c : Char) (rest : Str) (x : Str × Str × Str)
    (h : scanAt opn cl (c :: rest) = some x) :
    extractTagged opn cl (c :: rest) =
      (x.1 :: (extractTagged opn cl x.2.2).1, (extractTagged opn cl x.2.2).2) := by
  have hlen := scanAt_some_length opn cl (c :: rest) x hopn h
  show extractTF opn cl (c :: rest).length (c :: rest) = _
  rw [List.length_cons, extractTF_cons_some opn cl rest.length c rest x h,
    extractTF_fuel_eq opn cl hopn x.2.2.length x.2.2 (le_refl _) rest.length
      (by rw [List.length_cons] at hlen; omega)]

theorem extractTagged_cons_none (opn : Str) (cl : List Str)
    (c : Char) (rest : Str) (h : scanAt opn cl (c :: rest) = none) :
    extractTagged opn cl (c :: rest) =
      ((extractTagged opn cl rest).1, c :: (extractTagged opn cl rest).2) := by
  show extractTF opn cl (c :: rest).length (c :: rest) = _
  rw [List.length_cons, extractTF_cons_none opn cl rest.length c rest h]
  rfl

theorem scanAt_cons_not_lt (opn : Str) (cl : List Str) (t : Str)
    (hopn : opn = '<' :: t) (c : Char) (hc : c ≠ '<') (s : Str) :
    scanAt opn cl (c :: s) = none := by
  unfold scanAt
  have h : opn.isPrefixOf (c :: s) = false := by
    rw [hopn, isPrefixOf_cons_cons]
    simp [Ne.symm hc]
  simp [h]

theorem extractTagged_append_clean (opn : Str) (cl : List Str) (t : Str)
    (hopn : opn = '<' :: t) (w : Str) (hw : '<' ∉ w) (s : Str) :
    extractTagged opn cl (w ++ s) =
      ((extractTagged opn cl s).1, w ++ (extractTagged opn cl s).2) := by
  induction w with
  | nil => simp
  | cons c rest ih =>
    rw [List.cons_append,
      extractTagged_cons_none opn cl c (rest ++ s)
        (scanAt_cons_not_lt opn cl t hopn c (fun he => hw (he ▸ List.mem_cons_self c rest)) _),
      ih (fun hm => hw (List.mem_cons_of_mem c hm))]
    rfl

theorem extractTagged_no_open (opn : Str) (cl : List Str) :
    ∀ (s : Str), (∀ u, u <:+ s → opn.isPrefixOf u = false) →
      extractTagged opn cl s = ([], s) := by
  intro s
  induction s with
  | nil => intro _; rfl
  | cons c rest ih =>
    intro h
    have hscan : scanAt opn cl (c :: rest) = none := by
      unfold scanAt
      simp [h (c :: rest) (List.suffix_refl _)]
    rw [extractTagged_cons_none opn cl c rest hscan,
      ih (fun u hu => h u (hu.trans (List.suffix_cons c rest)))]

theorem findFirst_at_elem (cl : List Str) (hpats : ∀ p ∈ cl, ∃ u, p = '<' :: u)
    (body : Str) (hb : '<' ∉ body) (closer rest : Str) (hcl : closer ≠ [])
    (hfind : cl.find? (fun q => q.isPrefixOf (closer ++ rest)) = some closer) :
    findFirst cl (body ++ (closer ++ rest)) = some (body, closer, rest) := by
  rw [findFirst_append_clean cl hpats body hb]
  cases closer with
  | nil => exact absurd rfl hcl
  | cons c0 cs =>
    rw [List.cons_append] at hfind
    rw [List.cons_append, findFirst_cons_some cl c0 (cs ++ rest) _ hfind]
    show some (body ++ [], c0 :: cs, ((c0 :: cs) ++ rest).drop (c0 :: cs).length) = _
    rw [List.drop_left, List.append_nil]

theorem extractTagged_elem (opn : Str) (cl : List Str) (hopn : opn ≠ [])
    (body closer rest : Str)
    (hff : findFirst cl (body ++ (closer ++ rest)) = some (body, closer, rest)) :
    extractTagged opn cl (opn ++ (body ++ (closer ++ rest))) =
      (body :: (extractTagged opn cl rest).1, (extractTagged opn cl rest).2) := by
  have hscan : scanAt opn cl (opn ++ (body ++ (closer ++ rest))) = some (body, closer, rest) := by
    unfold scanAt
    rw [isPrefixOf_append_self]
    rw [if_pos rfl, List.drop_left]
    exact hff
  cases opn with
  | nil => exact absurd rfl hopn
  | cons o os =>
    rw [List.cons_append] at hscan ⊢
    exact extractTagged_cons_some (o :: os) cl (by simp) o (os ++ (body ++ (closer ++ rest)))
      (body, closer, rest) hscan

theorem forall_suffix_of_all_tails {P : Str → Bool} {l : Str}
    (h : l.tails.all P = true) : ∀ t, t <:+ l → P t = true := by
  intro t ht
  rw [List.all_eq_true] at h
  exact h t ((List.mem_tails _ _).mpr ht)

theorem find?_singleton_self (closer : Str) (rest : Str) :
    [closer].find? (fun q => q.isPrefixOf (closer ++ rest)) = some closer :=
  List.find?_cons_of_pos _ (isPrefixOf_append_self closer rest)

theorem toolMatches_interleave (ps : List (Str × Str)) :
    ∀ (s₀ tail : Str),
      '<' ∉ s₀ →
      (∀ p ∈ ps, '<' ∉ p.1 ∧ '<' ∉ p.2) →
      (∀ u, u <:+ tail → tagToolOpen.isPrefixOf u = false) →
      (extractTagged tagToolOpen [tagToolClose] (s₀ ++ (flatE ps ++ tail))).1 =
        ps.map (fun p => p.1) := by
  induction ps with
  | nil =>
    intro s₀ tail hs₀ _ htail
    rw [show flatE ([] : List (Str × Str)) = [] from rfl, List.nil_append,
      extractTagged_append_clean tagToolOpen [tagToolClose] (str "tool>") rfl s₀ hs₀ tail,
      extractTagged_no_open _ _ tail htail]
    rfl
  | cons p ps' ih =>
    intro s₀ tail hs₀ hps htail
    obtain ⟨b, sep⟩ := p
    have hb : '<' ∉ b := (hps (b, sep) (List.mem_cons_self _ _)).1
    have hsep : '<' ∉ sep := (hps (b, sep) (List.mem_cons_self _ _)).2
    have hff : findFirst [tagToolClose] (b ++ (tagToolClose ++ (sep ++ (flatE ps' ++ tail)))) =
        some (b, tagToolClose, sep ++ (flatE ps' ++ tail)) :=
      findFirst_at_elem [tagToolClose] (by intro q hq; simp at hq; exact ⟨str "/tool>", by rw [hq]; rfl⟩)
        b hb tagToolClose (sep ++ (flatE ps' ++ tail)) (by decide)
        (find?_singleton_self tagToolClose _)
    have helem := extractTagged_elem tagToolOpen [tagToolClose] (by decide)
      b tagToolClose (sep ++ (flatE ps' ++ tail)) hff
    have hclean := extractTagged_append_clean tagToolOpen [tagToolClose] (str "tool>") rfl
      s₀ hs₀ (tagToolOpen ++ (b ++ (tagToolClose ++ (sep ++ (flatE ps' ++ tail)))))
    have hrec := ih sep tail hsep
      (fun q hq => hps q (List.mem_cons_of_mem _ hq)) htail
    show (extractTagged tagToolOpen [tagToolClose]
        (s₀ ++ (flatE ((b, sep) :: ps') ++ tail))).1 = b :: ps'.map (fun p => p.1)
    have hshape : s₀ ++ (flatE ((b, sep) :: ps') ++ tail) =
        s₀ ++ (tagToolOpen ++ (b ++ (tagToolClose ++ (sep ++ (flatE ps' ++ tail))))) := by
      simp [flatE, List.append_assoc]
    rw [hshape, hclean, helem]
    show b :: (extractTagged tagToolOpen [tagToolClose] (sep ++ (flatE ps' ++ tail))).1 = _
    rw [hrec]

theorem tagToolsOpen_chars : tagToolsOpen = ['<', 't', 'o', 'o', 'l', 's', '>'] := rfl
theorem tagToolsClose_chars : tagToolsClose = ['<', '/', 't', 'o', 'o', 'l', 's', '>'] := rfl
theorem tagToolOpen_chars : tagToolOpen = ['<', 't', 'o', 'o', 'l', '>'] := rfl
theorem tagToolClose_chars : tagToolClose = ['<', '/', 't', 'o', 'o', 'l', '>'] := rfl

/-- No suffix of a tag literal `lit = '<' :: litc :: litr`, however extended,
starts with `opn2 = '<' :: c2 :: …` when the second characters differ and the
literal's tail is `'<'`-free. -/
theorem no_open_tail_lit (opn2 : Str) (c2 : Char) (t2 : Str)
    (hopn2 : opn2 = '<' :: c2 :: t2)
    (lit : Str) (litc : Char) (litr : Str) (hlit : lit = '<' :: litc :: litr)
    (hc2 : c2 ≠ litc) (hlitr : '<' ∉ litr) (hlitc : litc ≠ '<') :
    ∀ u', u' <:+ lit → u' ≠ [] → ∀ y, opn2.isPrefixOf (u' ++ y) = false := by
  intro u' hu' hne y
  rw [hlit] at hu'
  rcases List.suffix_cons_iff.mp hu' with rfl | hu2
  · rw [hopn2, List.cons_append, List.cons_append, isPrefixOf_cons_cons,
      isPrefixOf_cons_cons]
    simp [hc2]
  · rcases List.suffix_cons_iff.mp hu2 with rfl | hu3
    · rw [hopn2, List.cons_append, isPrefixOf_cons_cons]
      simp [Ne.symm hlitc]
    · cases u' with
      | nil => exact absurd rfl hne
      | cons c cs =>
        have hc : c ≠ '<' := fun he => hlitr (hu3.subset (he ▸ List.mem_cons_self c cs))
        rw [hopn2, List.cons_append, isPrefixOf_cons_cons]
        simp [Ne.symm hc]

/-- No suffix of `<tool>BODY</tool>` (for a `'<'`-free body) starts with a
tag `opn2 = '<' :: c2 :: …` whose second character is neither `t` nor `/`. -/
theorem no_open_in_elem (opn2 : Str) (c2 : Char) (t2 : Str)
    (hopn2 : opn2 = '<' :: c2 :: t2) (hct : c2 ≠ 't') (hcs : c2 ≠ '/')
    (s : Str) (hs : '<' ∉ s) :
    ∀ u, u <:+ tagToolOpen ++ (s ++ tagToolClose) → opn2.isPrefixOf u = false := by
  intro u hu
  rcases suffix_append_cases hu with hu1 | ⟨u', hu', hne, rfl⟩
  · rcases suffix_append_cases hu1 with hu2 | ⟨v, hv, hvne, rfl⟩
    · cases u with
      | nil => rw [hopn2]; rfl
      | cons c rest =>
        have := no_open_tail_lit opn2 c2 t2 hopn2 tagToolClose '/'
          ['t', 'o', 'o', 'l', '>'] tagToolClose_chars hcs (by decide) (by decide)
          (c :: rest) hu2 (by simp) []
        rw [List.append_nil] at this
        exact this
    · cases v with
      | nil => exact absurd rfl hvne
      | cons c vs =>
        have hc : c ≠ '<' := fun he => hs (hv.subset (he ▸ List.mem_cons_self c vs))
        rw [hopn2, List.cons_append, isPrefixOf_cons_cons]
        simp [Ne.symm hc]
  · exact no_open_tail_lit opn2 c2 t2 hopn2 tagToolOpen 't'
      ['o', 'o', 'l', '>'] tagToolOpen_chars hct (by decide) (by decide)
      u' hu' hne (s ++ tagToolClose)

@[simp] theorem extractTagged_nil (opn : Str) (cl : List Str) :
    extractTagged opn cl [] = ([], []) := rfl

@[simp] theorem jsTrim_nil : jsTrim [] = [] := rfl

/-- Claim C10: `parseResponse` is a total function (the embedding returns a
`ParsedResponse` for every string by construction — the source has no
uncaught throw: the only fallible platform call, `JSON.parse`, is wrapped in
a try/catch), and a `<tool>` element whose body does not match `Name(args)` —
`parseToolCall` returns `none` — is silently dropped, contributing nothing:
a response that is exactly one `<tools>` container holding one such `<tool>`
element parses to the empty `ParsedResponse`. -/
theorem claim_c10 (s : Str) (hs : '<' ∉ s) (hpc : parseToolCall (jsTrim s) = none) :
    parseResponse (tagToolsOpen ++ (tagToolOpen ++ (s ++ (tagToolClose ++ tagToolsClose)))) =
      ⟨[], [], [], []⟩ := by
  have hpats : ∀ p ∈ [tagToolsClose, tagToolsOpen], ∃ t, p = '<' :: t := by
    intro p hp
    simp only [List.mem_cons, List.not_mem_nil, or_false] at hp
    rcases hp with rfl | rfl
    · exact ⟨str "/tools>", rfl⟩
    · exact ⟨str "tools>", rfl⟩
  have hbase : findFirst [tagToolsClose, tagToolsOpen]
      (tagToolClose ++ (tagToolsClose ++ [])) =
      some (tagToolClose, tagToolsClose, []) := by decide
  have hnone : ([tagToolsClose, tagToolsOpen] : List Str).find?
      (fun p => p.isPrefixOf ('<' :: (['t', 'o', 'o', 'l', '>'] ++
        (s ++ (tagToolClose ++ (tagToolsClose ++ [])))))) = none := by
    rw [tagToolsClose_chars, tagToolsOpen_chars]
    simp [List.find?]
  have hff1 : findFirst [tagToolsClose, tagToolsOpen]
      ((tagToolOpen ++ (s ++ tagToolClose)) ++ (tagToolsClose ++ [])) =
      some (tagToolOpen ++ (s ++ tagToolClose), tagToolsClose, []) := by
    have hshape : (tagToolOpen ++ (s ++ tagToolClose)) ++ (tagToolsClose ++ []) =
        '<' :: (['t', 'o', 'o', 'l', '>'] ++
          (s ++ (tagToolClose ++ (tagToolsClose ++ [])))) := by
      rw [tagToolOpen_chars]
      simp [List.append_assoc]
    rw [hshape, findFirst_cons_none _ '<' _ hnone,
      findFirst_append_clean _ hpats ['t', 'o', 'o', 'l', '>'] (by decide) _,
      findFirst_append_clean _ hpats s hs _, hbase]
    simp [tagToolOpen_chars, List.append_assoc]
  have hstage1 : extractTagged tagToolsOpen [tagToolsClose, tagToolsOpen]
      (tagToolsOpen ++ ((tagToolOpen ++ (s ++ tagToolClose)) ++ (tagToolsClose ++ []))) =
      ([tagToolOpen ++ (s ++ tagToolClose)], []) := by
    have h := extractTagged_elem tagToolsOpen [tagToolsClose, tagToolsOpen] (by decide)
      (tagToolOpen ++ (s ++ tagToolClose)) tagToolsClose [] hff1
    rw [extractTagged_nil] at h
    exact h
  rw [List.append_nil] at hstage1
  have hffInner : findFirst [tagToolClose] (s ++ (tagToolClose ++ [])) =
      some (s, tagToolClose, []) :=
    findFirst_at_elem [tagToolClose]
      (by intro q hq; rw [List.mem_singleton] at hq; rw [hq]; exact ⟨str "/tool>", rfl⟩)
      s hs tagToolClose [] (by decide) (find?_singleton_self tagToolClose [])
  have hinner : extractTagged tagToolOpen [tagToolClose]
      (tagToolOpen ++ (s ++ tagToolClose)) = ([s], []) := by
    have hsh : tagToolOpen ++ (s ++ tagToolClose) =
        tagToolOpen ++ (s ++ (tagToolClose ++ [])) := by simp
    rw [hsh]
    have h := extractTagged_elem tagToolOpen [tagToolClose] (by decide)
      s tagToolClose [] hffInner
    rw [extractTagged_nil] at h
    exact h
  have hrem : extractTagged tagRememberOpen [tagRememberClose]
      (tagToolOpen ++ (s ++ tagToolClose)) = ([], tagToolOpen ++ (s ++ tagToolClose)) :=
    extractTagged_no_open _ _ _
      (no_open_in_elem tagRememberOpen 'r' (str "emember>") rfl (by decide) (by decide) s hs)
  have hforg : extractTagged tagForgetOpen [tagForgetClose]
      (tagToolOpen ++ (s ++ tagToolClose)) = ([], tagToolOpen ++ (s ++ tagToolClose)) :=
    extractTagged_no_open _ _ _
      (no_open_in_elem tagForgetOpen 'f' (str "orget>") rfl (by decide) (by decide) s hs)
  have hin : tagToolsOpen ++ (tagToolOpen ++ (s ++ (tagToolClose ++ tagToolsClose))) =
      tagToolsOpen ++ ((tagToolOpen ++ (s ++ tagToolClose)) ++ (tagToolsClose ++ [])) := by
    simp [List.append_assoc]
  rw [hin]
  unfold parseResponse toolBodiesIn remembersIn forgetsIn kimiCallsIn
  simp only [hstage1, extractTagged_nil, hinner, hrem, hforg, List.flatMap_cons,
    List.flatMap_nil, List.filterMap_cons, List.filterMap_nil, hpc, List.map_nil,
    List.append_nil, List.nil_append, jsTrim_nil]

/-- Claim C10 witness: the malformed body `not a tool call` inside a
`<tools><tool>…</tool></tools>` response contributes nothing. -/
theorem claim_c10_witness :
    parseResponse (tagToolsOpen ++ (tagToolOpen ++
        (str "not a tool call" ++ (tagToolClose ++ tagToolsClose)))) =
      ⟨[], [], [], []⟩ :=
  claim_c10 (str "not a tool call") (by decide) (by decide)

@[simp] theorem nil_isPrefixOf (l : Str) : List.isPrefixOf ([] : Str) l = true := by
  cases l <;> rfl

theorem tagToolsOpen_rev : tagToolsOpen.reverse = ['>', 's', 'l', 'o', 'o', 't', '<'] := by decide
theorem tagToolsClose_rev :
    tagToolsClose.reverse = ['>', 's', 'l', 'o', 'o', 't', '/', '<'] := by decide
theorem tagToolClose_rev : tagToolClose.reverse = ['>', 'l', 'o', 'o', 't', '/', '<'] := by decide

theorem ewR_not_gt (B : Str) (c : Char) (hc : c ≠ '>') :
    endsWithR (c :: B) tagToolsOpen = false
      ∧ endsWithR (c :: B) tagToolClose = false
      ∧ endsWithR (c :: B) tagToolsClose = false := by
  unfold endsWithR
  rw [tagToolsOpen_rev, tagToolClose_rev, tagToolsClose_rev]
  simp [Ne.symm hc]

theorem ewR_after_toolOpen (B : Str) :
    endsWithR ('>' :: 'l' :: 'o' :: 'o' :: 't' :: '<' :: B) tagToolsOpen = false
      ∧ endsWithR ('>' :: 'l' :: 'o' :: 'o' :: 't' :: '<' :: B) tagToolClose = false
      ∧ endsWithR ('>' :: 'l' :: 'o' :: 'o' :: 't' :: '<' :: B) tagToolsClose = false := by
  unfold endsWithR
  rw [tagToolsOpen_rev, tagToolClose_rev, tagToolsClose_rev]
  simp

theorem ewR_after_toolClose (B : Str) :
    endsWithR ('>' :: 'l' :: 'o' :: 'o' :: 't' :: '/' :: '<' :: B) tagToolsOpen = false
      ∧ endsWithR ('>' :: 'l' :: 'o' :: 'o' :: 't' :: '/' :: '<' :: B) tagToolClose = true
      ∧ endsWithR ('>' :: 'l' :: 'o' :: 'o' :: 't' :: '/' :: '<' :: B) tagToolsClose = false := by
  unfold endsWithR
  rw [tagToolsOpen_rev, tagToolClose_rev, tagToolsClose_rev]
  simp

theorem ewR_after_toolsClose (B : Str) :
    endsWithR ('>' :: 's' :: 'l' :: 'o' :: 'o' :: 't' :: '/' :: '<' :: B) tagToolsOpen = false
      ∧ endsWithR ('>' :: 's' :: 'l' :: 'o' :: 'o' :: 't' :: '/' :: '<' :: B) tagToolClose = false
      ∧ endsWithR ('>' :: 's' :: 'l' :: 'o' :: 'o' :: 't' :: '/' :: '<' :: B) tagToolsClose =
          true := by
  unfold endsWithR
  rw [tagToolsOpen_rev, tagToolClose_rev, tagToolsClose_rev]
  simp

theorem sfStep_supp_of_none (B : Str) (j : Nat) (c : Char)
    (h1 : endsWithR (c :: B) tagToolsOpen = false)
    (h2 : endsWithR (c :: B) tagToolClose = false)
    (h3 : endsWithR (c :: B) tagToolsClose = false) :
    sfStep (suppSt B j) c = (suppSt (c :: B) j, []) := by
  unfold sfStep suppSt
  simp [h1, h2, h3]

theorem sfStep_supp_toolClose (B : Str) (j : Nat)
    (h1 : endsWithR ('>' :: B) tagToolsOpen = false)
    (h2 : endsWithR ('>' :: B) tagToolClose = true)
    (h3 : endsWithR ('>' :: B) tagToolsClose = false) :
    sfStep (suppSt B j) '>' =
      (suppSt ('>' :: B) (emitNewTools (('>' :: B).reverse) j).2,
       (emitNewTools (('>' :: B).reverse) j).1) := by
  unfold sfStep suppSt
  simp [h1, h2, h3]

theorem sfStep_supp_toolsClose (B : Str) (j : Nat)
    (h1 : endsWithR ('>' :: B) tagToolsOpen = false)
    (h2 : endsWithR ('>' :: B) tagToolClose = false)
    (h3 : endsWithR ('>' :: B) tagToolsClose = true) :
    sfStep (suppSt B j) '>' = (initSF, (emitNewTools (('>' :: B).reverse) j).1) := by
  unfold sfStep suppSt initSF
  simp [h1, h2, h3]

theorem sfWrite_supp_clean (s : Str) :
    ∀ (B : Str) (j : Nat), (∀ c ∈ s, c ≠ '>') →
      sfWrite (suppSt B j) s = (suppSt (s.reverse ++ B) j, []) := by
  induction s with
  | nil => intro B j _; simp [sfWrite]
  | cons c rest ih =>
    intro B j h
    have hc := h c (List.mem_cons_self c rest)
    obtain ⟨h1, h2, h3⟩ := ewR_not_gt B c hc
    show (let x := sfStep (suppSt B j) c
          let y := sfWrite x.1 rest
          (y.1, x.2 ++ y.2)) = _
    rw [sfStep_supp_of_none B j c h1 h2 h3]
    show (let y := sfWrite (suppSt (c :: B) j) rest
          (y.1, ([] : List Out) ++ y.2)) = _
    rw [ih (c :: B) j (fun d hd => h d (List.mem_cons_of_mem c hd))]
    simp [List.append_assoc]

theorem sfWrite_singleton (st : SF) (c : Char) : sfWrite st [c] = sfStep st c := by
  show (let x := sfStep st c
        let y := sfWrite x.1 []
        (y.1, x.2 ++ y.2)) = _
  simp [sfWrite]

theorem sfWrite_toolOpen (B : Str) (j : Nat) :
    sfWrite (suppSt B j) tagToolOpen =
      (suppSt ('>' :: 'l' :: 'o' :: 'o' :: 't' :: '<' :: B) j, []) := by
  have hsplit : tagToolOpen = ['<', 't', 'o', 'o', 'l'] ++ ['>'] := by decide
  rw [hsplit, sfWrite_append, sfWrite_supp_clean ['<', 't', 'o', 'o', 'l'] B j (by decide)]
  have hrev : (['<', 't', 'o', 'o', 'l'] : Str).reverse = ['l', 'o', 'o', 't', '<'] := by decide
  rw [hrev]
  simp only [List.cons_append, List.nil_append, sfWrite_singleton]
  obtain ⟨h1, h2, h3⟩ := ewR_after_toolOpen B
  rw [sfStep_supp_of_none _ _ _ h1 h2 h3]

theorem sfWrite_toolCloseLit (B : Str) (j : Nat) :
    sfWrite (suppSt B j) tagToolClose =
      (suppSt ('>' :: 'l' :: 'o' :: 'o' :: 't' :: '/' :: '<' :: B)
         (emitNewTools (('>' :: 'l' :: 'o' :: 'o' :: 't' :: '/' :: '<' :: B).reverse) j).2,
       (emitNewTools (('>' :: 'l' :: 'o' :: 'o' :: 't' :: '/' :: '<' :: B).reverse) j).1) := by
  have hsplit : tagToolClose = ['<', '/', 't', 'o', 'o', 'l'] ++ ['>'] := by decide
  rw [hsplit, sfWrite_append, sfWrite_supp_clean ['<', '/', 't', 'o', 'o', 'l'] B j (by decide)]
  have hrev : (['<', '/', 't', 'o', 'o', 'l'] : Str).reverse = ['l', 'o', 'o', 't', '/', '<'] := by
    decide
  rw [hrev]
  simp only [List.cons_append, List.nil_append, sfWrite_singleton]
  obtain ⟨h1, h2, h3⟩ := ewR_after_toolClose B
  rw [sfStep_supp_toolClose _ _ h1 h2 h3]

theorem sfWrite_toolsCloseLit (B : Str) (j : Nat) :
    sfWrite (suppSt B j) tagToolsClose =
      (initSF,
       (emitNewTools (('>' :: 's' :: 'l' :: 'o' :: 'o' :: 't' :: '/' :: '<' :: B).reverse) j).1) := by
  have hsplit : tagToolsClose = ['<', '/', 't', 'o', 'o', 'l', 's'] ++ ['>'] := by decide
  rw [hsplit, sfWrite_append,
    sfWrite_supp_clean ['<', '/', 't', 'o', 'o', 'l', 's'] B j (by decide)]
  have hrev : (['<', '/', 't', 'o', 'o', 'l', 's'] : Str).reverse =
      ['s', 'l', 'o', 'o', 't', '/', '<'] := by decide
  rw [hrev]
  simp only [List.cons_append, List.nil_append, sfWrite_singleton]
  obtain ⟨h1, h2, h3⟩ := ewR_after_toolsClose B
  rw [sfStep_supp_toolsClose _ _ h1 h2 h3]

theorem noToolOpen_in_toolsClose : ∀ u, u <:+ tagToolsClose →
    tagToolOpen.isPrefixOf u = false := by
  intro u hu
  cases u with
  | nil => rfl
  | cons c cs =>
    have h := no_open_tail_lit tagToolOpen 't' (str "ool>") rfl tagToolsClose '/'
      (str "tools>") rfl (by decide) (by decide) (by decide) (c :: cs) hu (by simp) []
    rw [List.append_nil] at h
    exact h

theorem emitNewTools_at_close (s₀ : Str) (done : List (Str × Str)) (b : Str)
    (hs₀ : '<' ∉ s₀) (hdone : ∀ p ∈ done, '<' ∉ p.1 ∧ '<' ∉ p.2) (hb : '<' ∉ b)
    (i : ToolParsedInfo) (hi : toolInfoOf b = some i) :
    emitNewTools (s₀ ++ flatE done ++ (tagToolOpen ++ (b ++ tagToolClose))) done.length =
      ([Out.toolParsed i], done.length + 1) := by
  unfold emitNewTools
  have hshape : s₀ ++ flatE done ++ (tagToolOpen ++ (b ++ tagToolClose)) =
      s₀ ++ (flatE (done ++ [(b, [])]) ++ []) := by
    simp [flatE, List.flatMap_append, List.append_assoc]
  have hm : ∀ p ∈ done ++ [(b, [])], '<' ∉ p.1 ∧ '<' ∉ p.2 := by
    intro p hp
    rcases List.mem_append.mp hp with h | h
    · exact hdone p h
    · rw [List.mem_singleton] at h
      subst h
      exact ⟨hb, by simp⟩
  have ht : ∀ u, u <:+ ([] : Str) → tagToolOpen.isPrefixOf u = false := by
    intro u hu
    rw [List.suffix_nil] at hu
    subst hu
    rfl
  rw [hshape, toolMatches_interleave (done ++ [(b, [])]) s₀ [] hs₀ hm ht]
  have hdrop : List.drop done.length
      (List.map (fun p : Str × Str => p.1) done ++ [b]) = [b] :=
    List.drop_left' (by simp)
  simp only [List.map_append, List.map_cons, List.map_nil, hdrop]
  simp [hi]

theorem emitNewTools_at_final (s₀ : Str) (done : List (Str × Str))
    (hs₀ : '<' ∉ s₀) (hdone : ∀ p ∈ done, '<' ∉ p.1 ∧ '<' ∉ p.2) :
    emitNewTools (s₀ ++ flatE done ++ tagToolsClose) done.length = ([], done.length) := by
  unfold emitNewTools
  have hshape : s₀ ++ flatE done ++ tagToolsClose = s₀ ++ (flatE done ++ tagToolsClose) := by
    rw [List.append_assoc]
  rw [hshape, toolMatches_interleave done s₀ tagToolsClose hs₀ hdone noToolOpen_in_toolsClose]
  have hdrop : List.drop done.length (List.map (fun p : Str × Str => p.1) done) = [] := by
    simp
  simp only [hdrop]
  simp

theorem sfStep_normal (c : Char) (hc : c ≠ '<') :
    sfStep initSF c = (initSF, [Out.emit [c]]) := by
  unfold sfStep initSF
  simp [hc]

theorem sfWrite_normal (s : Str) (hs : '<' ∉ s) :
    sfWrite initSF s = (initSF, s.map (fun c => Out.emit [c])) := by
  induction s with
  | nil => rfl
  | cons c rest ih =>
    have hc : c ≠ '<' := fun h => hs (h ▸ List.mem_cons_self c rest)
    have hrest : '<' ∉ rest := fun h => hs (List.mem_cons_of_mem c h)
    show (let x := sfStep initSF c
          let y := sfWrite x.1 rest
          (y.1, x.2 ++ y.2)) = _
    rw [sfStep_normal c hc]
    show (let y := sfWrite initSF rest
          (y.1, [Out.emit [c]] ++ y.2)) = _
    rw [ih hrest]
    rfl

theorem sfWrite_toolsOpen_init : sfWrite initSF tagToolsOpen = (suppSt [] 0, []) := rfl

theorem sfFlush_init : sfFlush initSF = (initSF, []) := rfl

theorem sfWrite_supp_elems (todo : List (Str × Str)) :
    ∀ (done : List (Str × Str)) (s₀ : Str),
      '<' ∉ s₀ → '>' ∉ s₀ →
      (∀ p ∈ done, ('<' ∉ p.1 ∧ '>' ∉ p.1) ∧ ('<' ∉ p.2 ∧ '>' ∉ p.2)) →
      (∀ p ∈ todo,
        (('<' ∉ p.1 ∧ '>' ∉ p.1) ∧ ('<' ∉ p.2 ∧ '>' ∉ p.2)) ∧ (toolInfoOf p.1).isSome) →
      sfWrite (suppSt ((s₀ ++ flatE done).reverse) done.length)
          (flatE todo ++ tagToolsClose) =
        (initSF, (todo.filterMap (fun p => toolInfoOf p.1)).map Out.toolParsed) := by
  induction todo with
  | nil =>
    intro done s₀ hs₀lt hs₀gt hdone _
    rw [show flatE ([] : List (Str × Str)) = [] from rfl, List.nil_append,
      sfWrite_toolsCloseLit]
    have hbuf : ('>' :: 's' :: 'l' :: 'o' :: 'o' :: 't' :: '/' :: '<' ::
        (s₀ ++ flatE done).reverse).reverse = s₀ ++ flatE done ++ tagToolsClose := by
      rw [tagToolsClose_chars]
      simp [List.append_assoc]
    have hdone' : ∀ p ∈ done, '<' ∉ p.1 ∧ '<' ∉ p.2 := by
      intro p hp
      exact ⟨(hdone p hp).1.1, (hdone p hp).2.1⟩
    rw [hbuf, emitNewTools_at_final s₀ done hs₀lt hdone']
    rfl
  | cons p todo' ih =>
    obtain ⟨b, sep⟩ := p
    intro done s₀ hs₀lt hs₀gt hdone htodo
    obtain ⟨⟨⟨hblt, hbgt⟩, hslt, hsgt⟩, hsome⟩ := htodo (b, sep) (List.mem_cons_self _ _)
    obtain ⟨i, hi⟩ := Option.isSome_iff_exists.mp hsome
    have hdone' : ∀ q ∈ done, '<' ∉ q.1 ∧ '<' ∉ q.2 := by
      intro q hq
      exact ⟨(hdone q hq).1.1, (hdone q hq).2.1⟩
    have hbne : ∀ c ∈ b, c ≠ '>' := fun c hc h => hbgt (h ▸ hc)
    have hsne : ∀ c ∈ sep, c ≠ '>' := fun c hc h => hsgt (h ▸ hc)
    have hflat : flatE ((b, sep) :: todo') ++ tagToolsClose =
        tagToolOpen ++ (b ++ (tagToolClose ++ (sep ++ (flatE todo' ++ tagToolsClose)))) := by
      simp [flatE, List.append_assoc]
    rw [hflat, sfWrite_append, sfWrite_toolOpen]
    simp only [List.nil_append]
    rw [sfWrite_append, sfWrite_supp_clean b _ _ hbne]
    simp only [List.nil_append]
    rw [sfWrite_append, sfWrite_toolCloseLit]
    have hbuf : ('>' :: 'l' :: 'o' :: 'o' :: 't' :: '/' :: '<' ::
        (b.reverse ++ ('>' :: 'l' :: 'o' :: 'o' :: 't' :: '<' ::
          (s₀ ++ flatE done).reverse))).reverse =
        s₀ ++ flatE done ++ (tagToolOpen ++ (b ++ tagToolClose)) := by
      rw [tagToolOpen_chars, tagToolClose_chars]
      simp [List.append_assoc]
    rw [hbuf, emitNewTools_at_close s₀ done b hs₀lt hdone' hblt i hi]
    simp only []
    rw [sfWrite_append, sfWrite_supp_clean sep _ _ hsne]
    simp only [List.nil_append]
    have hfwd : s₀ ++ flatE (done ++ [(b, sep)]) =
        s₀ ++ flatE done ++ (tagToolOpen ++ (b ++ (tagToolClose ++ sep))) := by
      simp [flatE, List.flatMap_append, List.append_assoc]
    have hbuf2 : sep.reverse ++ ('>' :: 'l' :: 'o' :: 'o' :: 't' :: '/' :: '<' ::
        (b.reverse ++ ('>' :: 'l' :: 'o' :: 'o' :: 't' :: '<' ::
          (s₀ ++ flatE done).reverse))) =
        (s₀ ++ flatE (done ++ [(b, sep)])).reverse := by
      rw [hfwd, tagToolOpen_chars, tagToolClose_chars]
      simp [List.reverse_append, List.append_assoc]
    have hlen : done.length + 1 = (done ++ [(b, sep)]).length := by simp
    have hdone2 : ∀ q ∈ done ++ [(b, sep)],
        ('<' ∉ q.1 ∧ '>' ∉ q.1) ∧ ('<' ∉ q.2 ∧ '>' ∉ q.2) := by
      intro q hq
      rcases List.mem_append.mp hq with h | h
      · exact hdone q h
      · rw [List.mem_singleton] at h
        subst h
        exact ⟨⟨hblt, hbgt⟩, hslt, hsgt⟩
    have htodo2 : ∀ q ∈ todo',
        (('<' ∉ q.1 ∧ '>' ∉ q.1) ∧ ('<' ∉ q.2 ∧ '>' ∉ q.2)) ∧ (toolInfoOf q.1).isSome :=
      fun q hq => htodo q (List.mem_cons_of_mem _ hq)
    rw [hbuf2, hlen, ih (done ++ [(b, sep)]) s₀ hs₀lt hs₀gt hdone2 htodo2]
    simp [hi]

theorem toolEventsOfOut_append (a b : List Out) :
    toolEventsOfOut (a ++ b) = toolEventsOfOut a ++ toolEventsOfOut b := by
  simp [toolEventsOfOut]

theorem toolEventsOfOut_emitMap (s : Str) :
    toolEventsOfOut (s.map (fun c => Out.emit [c])) = [] := by
  unfold toolEventsOfOut
  induction s with
  | nil => rfl
  | cons c rest ih => simp [List.filterMap_cons]

theorem toolEventsOfOut_toolMap (l : List ToolParsedInfo) :
    toolEventsOfOut (l.map Out.toolParsed) = l := by
  unfold toolEventsOfOut
  induction l with
  | nil => rfl
  | cons i rest ih => simp [List.filterMap_cons, ih]

theorem outChars_append (a b : List Out) :
    outChars (a ++ b) = outChars a ++ outChars b := by
  simp [outChars]

theorem outChars_emitMap (s : Str) : outChars (s.map (fun c => Out.emit [c])) = s := by
  unfold outChars
  induction s with
  | nil => rfl
  | cons c rest ih => simp [ih]

theorem outChars_toolMap (l : List ToolParsedInfo) :
    outChars (l.map Out.toolParsed) = [] := by
  unfold outChars
  induction l with
  | nil => rfl
  | cons i rest ih => simp

theorem filterMap_isSome_length {α β : Type} (f : α → Option β) :
    ∀ l : List α, (∀ a ∈ l, (f a).isSome) → (l.filterMap f).length = l.length := by
  intro l
  induction l with
  | nil => intro _; rfl
  | cons a l ih =>
    intro h
    obtain ⟨b, hb⟩ := Option.isSome_iff_exists.mp (h a (List.mem_cons_self a l))
    rw [List.filterMap_cons, hb]
    simp [ih (fun x hx => h x (List.mem_cons_of_mem _ hx))]

/-- C3: for an input containing exactly one `<tools>…</tools>` region enclosing
K well-formed `<tool>…</tool>` elements (angle-bracket-free bodies and
separators, each body in `Name(args)` shape), the stream filter fires
`onToolParsed` exactly K times — once per element, in order, with the parsed
name/preview — and no character inside the suppressed region reaches the
output sink: the emitted text is exactly the text before and after the
region. -/
theorem claim_c3 (pre post s₀ : Str) (elems : List (Str × Str))
    (hpre : '<' ∉ pre) (hpost : '<' ∉ post)
    (hs₀ : '<' ∉ s₀ ∧ '>' ∉ s₀)
    (helems : ∀ p ∈ elems,
      (('<' ∉ p.1 ∧ '>' ∉ p.1) ∧ ('<' ∉ p.2 ∧ '>' ∉ p.2)) ∧ (toolInfoOf p.1).isSome) :
    toolEventsOfOut (runFilter
        [pre ++ (tagToolsOpen ++ (s₀ ++ ((flatE elems ++ tagToolsClose) ++ post)))]) =
      elems.filterMap (fun p => toolInfoOf p.1) ∧
    (toolEventsOfOut (runFilter
        [pre ++ (tagToolsOpen ++ (s₀ ++ ((flatE elems ++ tagToolsClose) ++ post)))])).length =
      elems.length ∧
    outChars (runFilter
        [pre ++ (tagToolsOpen ++ (s₀ ++ ((flatE elems ++ tagToolsClose) ++ post)))]) =
      pre ++ post := by
  have hs₀ne : ∀ c ∈ s₀, c ≠ '>' := fun c hc h => hs₀.2 (h ▸ hc)
  have hse := sfWrite_supp_elems elems [] s₀ hs₀.1 hs₀.2 (by intro p hp; cases hp) helems
  have h0 : (s₀ ++ flatE ([] : List (Str × Str))).reverse = s₀.reverse := by simp [flatE]
  rw [h0, List.length_nil] at hse
  have hw : sfWrite initSF
      (pre ++ (tagToolsOpen ++ (s₀ ++ ((flatE elems ++ tagToolsClose) ++ post)))) =
      (initSF, pre.map (fun c => Out.emit [c]) ++
        ((elems.filterMap (fun p => toolInfoOf p.1)).map Out.toolParsed ++
          post.map (fun c => Out.emit [c]))) := by
    rw [sfWrite_append, sfWrite_normal pre hpre]
    simp only []
    rw [sfWrite_append, sfWrite_toolsOpen_init]
    simp only []
    rw [sfWrite_append, sfWrite_supp_clean s₀ _ _ hs₀ne]
    simp only [List.append_nil]
    rw [sfWrite_append, hse]
    simp only []
    rw [sfWrite_normal post hpost]
    simp
  have hchunks : sfWriteChunks initSF
      [pre ++ (tagToolsOpen ++ (s₀ ++ ((flatE elems ++ tagToolsClose) ++ post)))] =
      (initSF, pre.map (fun c => Out.emit [c]) ++
        ((elems.filterMap (fun p => toolInfoOf p.1)).map Out.toolParsed ++
          post.map (fun c => Out.emit [c]))) := by
    show (let x := sfWrite initSF
            (pre ++ (tagToolsOpen ++ (s₀ ++ ((flatE elems ++ tagToolsClose) ++ post))))
          let y := sfWriteChunks x.1 []
          (y.1, x.2 ++ y.2)) = _
    rw [hw]
    simp [sfWriteChunks]
  have houts : runFilter
      [pre ++ (tagToolsOpen ++ (s₀ ++ ((flatE elems ++ tagToolsClose) ++ post)))] =
      pre.map (fun c => Out.emit [c]) ++
        ((elems.filterMap (fun p => toolInfoOf p.1)).map Out.toolParsed ++
          post.map (fun c => Out.emit [c])) := by
    unfold runFilter
    rw [hchunks]
    simp [sfFlush_init]
  refine ⟨?_, ?_, ?_⟩
  · rw [houts, toolEventsOfOut_append, toolEventsOfOut_append, toolEventsOfOut_emitMap,
      toolEventsOfOut_emitMap, toolEventsOfOut_toolMap]
    simp
  · rw [houts, toolEventsOfOut_append, toolEventsOfOut_append, toolEventsOfOut_emitMap,
      toolEventsOfOut_emitMap, toolEventsOfOut_toolMap]
    simp only [List.nil_append, List.append_nil]
    exact filterMap_isSome_length _ elems (fun p hp => (helems p hp).2)
  · rw [houts, outChars_append, outChars_append, outChars_emitMap, outChars_emitMap,
      outChars_toolMap]
    simp

theorem claim_c3_witness :
    toolEventsOfOut (runFilter
        [str "Hi " ++ (tagToolsOpen ++ (str " " ++
          ((flatE [(str "Read(a)", str " ")] ++ tagToolsClose) ++ str "!")))]) =
      [(str "Read(a)", str " ")].filterMap (fun p => toolInfoOf p.1) ∧
    (toolEventsOfOut (runFilter
        [str "Hi " ++ (tagToolsOpen ++ (str " " ++
          ((flatE [(str "Read(a)", str " ")] ++ tagToolsClose) ++ str "!")))])).length =
      [(str "Read(a)", str " ")].length ∧
    outChars (runFilter
        [str "Hi " ++ (tagToolsOpen ++ (str " " ++
          ((flatE [(str "Read(a)", str " ")] ++ tagToolsClose) ++ str "!")))]) =
      str "Hi " ++ str "!" :=
  claim_c3 (str "Hi ") (str "!") (str " ") [(str "Read(a)", str " ")]
    (by decide) (by decide) (by decide) (by decide)

end Gloop
